import Mathlib

/-! protolint, rule FIELD_NAMES_LOWER_SNAKE_CASE

A shallow embedding of `internal/addon/rules/fieldNamesLowerSnakeCaseRule.go`:
`Apply`, the three visit callbacks, `Record`, `Finally` and `fix`, followed by
the properties of the rule.

Conventions of the embedding.

* A Go `string` is a Lean `String` (a sequence of Unicode scalar values, that
  is, valid UTF-8); Go `int` is `Int`. The only arithmetic of the file is
  `i+1` on a slice index and `Column-1`, an index that is out of range
  whenever it is negative or too large, so the machine width plays no part.
* The map `fieldIdent map[int][]fieldIdent` is a function from keys to
  `Option`: `none` is an absent key (`_, ok := m[k]` with `ok == false`).
* A run-time panic (slice index out of range) is `none` in the loops of `fix`
  and `Outcome.panic` in its result.
* `strs.IsLowerSnakeCase`, `strs.ToLowerSnake`, `osutil.ReadAllLines` and
  `osutil.WriteLinesToExistingFile` are code of other packages: the
  definitions take them as parameters.
-/

namespace FieldNamesLowerSnakeCase

/-! ## Data model -/

/-- Source position `meta.Position` of go-protoparser. -/
structure Position where
  Filename : String
  Offset : Int
  Line : Int
  Column : Int
deriving DecidableEq, Repr

/-- Declaration metadata `meta.Meta` of go-protoparser. -/
structure Meta where
  Pos : Position
  LastPos : Position
deriving DecidableEq, Repr

/-- The record `fieldIdent` of the rule: one recorded occurrence. -/
structure fieldIdent where
  Name : String
  meta : Meta
deriving DecidableEq, Repr

/-- Modelled from the spec: `report.Failure`, the reported diagnostic
`{position, message}`. -/
structure Failure where
  pos : Position
  message : String
deriving DecidableEq, Repr

/-- The fields of `parser.Field` that the rule reads. -/
structure Field where
  FieldName : String
  Meta : Meta
deriving DecidableEq, Repr

/-- The fields of `parser.MapField` that the rule reads. -/
structure MapField where
  MapName : String
  Meta : Meta
deriving DecidableEq, Repr

/-- The fields of `parser.OneofField` that the rule reads. -/
structure OneofField where
  FieldName : String
  Meta : Meta
deriving DecidableEq, Repr

/-- The map type `map[int][]fieldIdent`. -/
abbrev Tracker := Int → Option (List fieldIdent)

/-- The value `make(map[int][]fieldIdent)`. -/
def emptyTracker : Tracker := fun _ => none

/-- The struct `fieldNamesLowerSnakeCaseVisitor`; `ruleID` and `failures` are
the state of the embedded `*visitor.BaseAddVisitor`. -/
structure Visitor where
  ruleID : String
  failures : List Failure
  fixMode : Bool
  style : String
  protoLines : List String
  currentLevel : Int
  newline : String
  notInsertNewline : Bool
  protoFileName : String
  fieldIdent : Tracker

/-! ## Go library functions used by the rule -/

/-- Go `unicode.IsSpace`. -/
def isSpace (c : Char) : Bool :=
  let n := c.toNat
  (9 ≤ n && n ≤ 13) || n = 0x20 || n = 0x85 || n = 0xA0 || n = 0x1680 ||
  (0x2000 ≤ n && n ≤ 0x200A) || n = 0x2028 || n = 0x2029 || n = 0x202F ||
  n = 0x205F || n = 0x3000

/-- Loop of `strings.Fields`: `cur` is the field being read, most recent
character first. -/
def fieldsAux : List Char → List Char → List (List Char)
  | [], cur => if cur = [] then [] else [cur.reverse]
  | c :: cs, cur =>
    if isSpace c then
      (if cur = [] then fieldsAux cs [] else cur.reverse :: fieldsAux cs [])
    else fieldsAux cs (c :: cur)

/-- Go `strings.Fields`: the maximal runs of non-space characters. -/
def Fields (s : String) : List String :=
  (fieldsAux s.data []).map String.mk

/-- Lower-case hexadecimal digit of `n % 16`. -/
def hexDigit (n : Nat) : Char :=
  let d := n % 16
  if d < 10 then Char.ofNat (48 + d) else Char.ofNat (87 + d)

/-- Go `strconv.IsPrint`; `tbl` stands for the Unicode tables consulted above
U+00FF. -/
def IsPrint (tbl : Char → Bool) (c : Char) : Bool :=
  let n := c.toNat
  if n ≤ 0xFF then
    if 0x20 ≤ n && n < 0x7F then true
    else if 0xA1 ≤ n then n != 0xAD
    else false
  else tbl c

/-- Go `strconv.appendEscapedRune` for the double quote, neither ASCII-only
nor graphic-only. -/
def appendEscapedRune (tbl : Char → Bool) (c : Char) : List Char :=
  let n := c.toNat
  if n = 34 || n = 92 then [Char.ofNat 92, c]
  else if IsPrint tbl c then [c]
  else if n = 7 then [Char.ofNat 92, Char.ofNat 97]
  else if n = 8 then [Char.ofNat 92, Char.ofNat 98]
  else if n = 12 then [Char.ofNat 92, Char.ofNat 102]
  else if n = 10 then [Char.ofNat 92, Char.ofNat 110]
  else if n = 13 then [Char.ofNat 92, Char.ofNat 114]
  else if n = 9 then [Char.ofNat 92, Char.ofNat 116]
  else if n = 11 then [Char.ofNat 92, Char.ofNat 118]
  else if n < 0x20 || n = 0x7F then
    [Char.ofNat 92, Char.ofNat 120, hexDigit (n / 16), hexDigit n]
  else if n < 0x10000 then
    [Char.ofNat 92, Char.ofNat 117, hexDigit (n / 4096), hexDigit (n / 256),
      hexDigit (n / 16), hexDigit n]
  else
    [Char.ofNat 92, Char.ofNat 85, hexDigit (n / 268435456),
      hexDigit (n / 16777216), hexDigit (n / 1048576), hexDigit (n / 65536),
      hexDigit (n / 4096), hexDigit (n / 256), hexDigit (n / 16), hexDigit n]

/-- Go `strconv.Quote`, which is what the verb `%q` prints for a string. -/
def Quote (tbl : Char → Bool) (s : String) : String :=
  String.mk (Char.ofNat 34 :: (s.data.flatMap (appendEscapedRune tbl) ++ [Char.ofNat 34]))

/-! ## The visitor -/

/-- Modelled from the spec: `BaseAddVisitor.AddFailuref` of package
`linter/visitor`, restricted to the one format of this rule,
`"Field name %q must be underscore_separated_names"`: it appends the Failure
with the formatted message at `pos`. -/
def AddFailuref (tbl : Char → Bool) (v : Visitor) (pos : Position) (name : String) :
    Visitor :=
  { v with failures := v.failures ++
      [⟨pos, "Field name " ++ Quote tbl name ++ " must be underscore_separated_names"⟩] }

/-- Go `append(m[line], ident)` stored back at `m[line]`. -/
def recordAt (m : Tracker) (line : Int) (ident : fieldIdent) : Tracker :=
  fun k => if k = line then some ((m line).getD [] ++ [ident]) else m k

/-- The method `Record`. -/
def Record (v : Visitor) (line : Int) (ident : fieldIdent) : Visitor :=
  { v with fieldIdent := recordAt v.fieldIdent line ident }

/-- The method `VisitField`. -/
def VisitField (IsLowerSnakeCase : String → Bool) (tbl : Char → Bool) (v : Visitor)
    (field : Field) : Visitor × Bool :=
  if !IsLowerSnakeCase field.FieldName then
    (AddFailuref tbl (Record v field.Meta.Pos.Line ⟨field.FieldName, field.Meta⟩)
      field.Meta.Pos field.FieldName, false)
  else (v, false)

/-- The method `VisitMapField`. -/
def VisitMapField (IsLowerSnakeCase : String → Bool) (tbl : Char → Bool) (v : Visitor)
    (field : MapField) : Visitor × Bool :=
  if !IsLowerSnakeCase field.MapName then
    (AddFailuref tbl (Record v field.Meta.Pos.Line ⟨field.MapName, field.Meta⟩)
      field.Meta.Pos field.MapName, false)
  else (v, false)

/-- The method `VisitOneofField`. -/
def VisitOneofField (IsLowerSnakeCase : String → Bool) (tbl : Char → Bool) (v : Visitor)
    (field : OneofField) : Visitor × Bool :=
  if !IsLowerSnakeCase field.FieldName then
    (AddFailuref tbl (Record v field.Meta.Pos.Line ⟨field.FieldName, field.Meta⟩)
      field.Meta.Pos field.FieldName, false)
  else (v, false)

/-- The three declaration variants on which the traversal calls the rule. -/
inductive Decl where
  | field (f : Field)
  | mapField (f : MapField)
  | oneofField (f : OneofField)
deriving DecidableEq, Repr

/-- Name checked in a declaration. -/
def Decl.name : Decl → String
  | .field f => f.FieldName
  | .mapField f => f.MapName
  | .oneofField f => f.FieldName

/-- Metadata of a declaration. -/
def Decl.meta : Decl → Meta
  | .field f => f.Meta
  | .mapField f => f.Meta
  | .oneofField f => f.Meta

/-- Dispatch of one declaration to its visit callback. -/
def visit (IsLowerSnakeCase : String → Bool) (tbl : Char → Bool) (v : Visitor) :
    Decl → Visitor × Bool
  | .field f => VisitField IsLowerSnakeCase tbl v f
  | .mapField f => VisitMapField IsLowerSnakeCase tbl v f
  | .oneofField f => VisitOneofField IsLowerSnakeCase tbl v f

/-- Modelled from the spec: the traversal framework (`visitor.RunVisitor`)
calls the visit callbacks on the field-like declarations in document order. -/
def visitAll (IsLowerSnakeCase : String → Bool) (tbl : Char → Bool) :
    List Decl → Visitor → Visitor
  | [], v => v
  | d :: ds, v => visitAll IsLowerSnakeCase tbl ds (visit IsLowerSnakeCase tbl v d).1

/-! ## The autofix step -/

/-- A Go `error` value that is not nil, by its message. -/
abbrev GoError := String

/-- One call of `osutil.WriteLinesToExistingFile`. -/
structure WriteCall where
  fileName : String
  lines : List String
  newline : String
deriving DecidableEq, Repr

/-- What a method call did: it panicked, or it returned `err` after printing
`stdout` and issuing the file writes `writes`. -/
inductive Outcome where
  | panic
  | ret (stdout : List String) (writes : List WriteCall) (err : Option GoError)
deriving DecidableEq, Repr

/-- The variables `fix` accumulates: standard output and `fixedLines`. -/
structure FixState where
  stdout : List String
  fixedLines : List String
deriving DecidableEq, Repr

/-- Go slice indexing `lines[i]`: `none` is the index-out-of-range panic. -/
def index? (lines : List String) (i : Int) : Option String :=
  if 0 ≤ i then lines[i.toNat]? else none

/-- The loop `for ii, l := range lines` of `fix`, from index `ii` on. -/
def fixedLineLoop : Nat → List String → String → String
  | _, [], fixedLine => fixedLine
  | ii, l :: ls, fixedLine =>
    let fixedLine1 := if ii = 0 then fixedLine ++ " " else fixedLine
    let fixedLine2 := if l != " " then fixedLine1 ++ " " ++ l else fixedLine1
    fixedLineLoop (ii + 1) ls fixedLine2

/-- The line `fix` builds from the token slice `lines`. -/
def fixedLineOf (lines : List String) : String :=
  fixedLineLoop 0 lines ""

/-- What `fmt.Println("fix : replace ", old, " with ", text)` prints. -/
def printlnFix (old text : String) : String :=
  "fix : replace " ++ " " ++ old ++ " " ++ " with " ++ " " ++ text ++ "\n"

/-- The loop `for j := len(fixes) - 1; 0 <= j; j--` of `fix`; the first
argument lists `fixes[j], fixes[j-1], ..., fixes[0]`. -/
def fixLoopJ (ToLowerSnake : String → String) :
    List fieldIdent → List String → FixState → Option FixState
  | [], _, st => some st
  | f :: pending, lines, st =>
    match index? lines (f.meta.Pos.Column - 1) with
    | none => none
    | some old =>
      let text := ToLowerSnake old
      let lines1 := lines.set (f.meta.Pos.Column - 1).toNat text
      fixLoopJ ToLowerSnake pending lines1
        ⟨st.stdout ++ [printlnFix old text], st.fixedLines ++ [fixedLineOf lines1]⟩

/-- The loop `for i, line := range v.protoLines` of `fix`, from index `i` on. -/
def fixLoopI (ToLowerSnake : String → String) (m : Tracker) :
    Nat → List String → FixState → Option FixState
  | _, [], st => some st
  | i, line :: rest, st =>
    match m ((i : Int) + 1) with
    | some fixes =>
      (fixLoopJ ToLowerSnake fixes.reverse (Fields line) st).bind
        (fixLoopI ToLowerSnake m (i + 1) rest)
    | none =>
      fixLoopI ToLowerSnake m (i + 1) rest
        ⟨st.stdout, st.fixedLines ++ [line]⟩

/-- The method `fix`. `WriteLines` gives the error that
`osutil.WriteLinesToExistingFile` returns. -/
def fix (ToLowerSnake : String → String)
    (WriteLines : String → List String → String → Option GoError) (v : Visitor) :
    Outcome :=
  match fixLoopI ToLowerSnake v.fieldIdent 0 v.protoLines ⟨[], []⟩ with
  | none => .panic
  | some st =>
    .ret st.stdout [⟨v.protoFileName, st.fixedLines, v.newline⟩]
      (WriteLines v.protoFileName st.fixedLines v.newline)

/-- The method `Finally`. -/
def Finally (ToLowerSnake : String → String)
    (WriteLines : String → List String → String → Option GoError) (v : Visitor) :
    Outcome :=
  if v.fixMode then fix ToLowerSnake WriteLines v else .ret [] [] none

/-- The lines the outer loop of `fix` appends to `fixedLines` for the part
`lines` of the buffer that starts at index `i`; `none` when it panics. -/
def linesWrittenFrom (ToLowerSnake : String → String) (m : Tracker) (i : Nat)
    (lines : List String) : Option (List String) :=
  (fixLoopI ToLowerSnake m i lines ⟨[], []⟩).map FixState.fixedLines

/-- The lines `fix` hands to the file writer, `none` when it does not get
there. -/
def linesWritten (ToLowerSnake : String → String) (m : Tracker)
    (protoLines : List String) : Option (List String) :=
  linesWrittenFrom ToLowerSnake m 0 protoLines

/-- The lines one iteration of the outer loop of `fix` appends for the line at
index `i`; `none` when it panics. -/
def lineOut (ToLowerSnake : String → String) (m : Tracker) (i : Nat) (line : String) :
    Option (List String) :=
  match m ((i : Int) + 1) with
  | some fixes =>
    (fixLoopJ ToLowerSnake fixes.reverse (Fields line) ⟨[], []⟩).map FixState.fixedLines
  | none => some [line]

/-- Tokens, each preceded by one space. -/
def spaced : List String → String
  | [] => ""
  | t :: ts => " " ++ t ++ spaced ts

/-- Tokens, each preceded by one space, a token equal to one space left out
(the guard of the innermost loop of `fix`). -/
def spacedKeep : List String → String
  | [] => ""
  | t :: ts => (if t != " " then " " ++ t else "") ++ spacedKeep ts

/-! ## Classifier and converter used in the examples -/

/-- Modelled from the spec: `strs.IsLowerSnakeCase`, true iff the name
contains only lowercase letters, digits and underscores. -/
def strs.IsLowerSnakeCase (s : String) : Bool :=
  s.data.all (fun c => c.isLower || c.isDigit || c = Char.ofNat 95)

/-- Separator insertion, normalisation and lowercasing of
`strs.ToLowerSnake`; `prev` is the preceding character. -/
def strs.snakeAux : Option Char → List Char → List Char
  | _, [] => []
  | prev, c :: cs =>
    let sep := c.isUpper &&
      (match prev with
       | some p => p.isLower || p.isDigit
       | none => false)
    let c1 := if c.isAlphanum then c.toLower else Char.ofNat 95
    (if sep then [Char.ofNat 95, c1] else [c1]) ++ strs.snakeAux (some c) cs

/-- Collapse of repeated underscores. -/
def strs.collapse : List Char → List Char
  | [] => []
  | [c] => [c]
  | c :: d :: cs =>
    if c = Char.ofNat 95 ∧ d = Char.ofNat 95 then strs.collapse (d :: cs)
    else c :: strs.collapse (d :: cs)

/-- Modelled from the spec: `strs.ToLowerSnake`: a separator before each
uppercase letter that follows a lowercase letter or digit, other
non-alphanumeric characters become underscores, everything is lowercased,
repeated separators are collapsed. -/
def strs.ToLowerSnake (s : String) : String :=
  String.mk (strs.collapse (strs.snakeAux none s.data))

/-- Print table used in the examples: nothing above U+00FF is printable. -/
def noTable : Char → Bool := fun _ => false

/-- A file writer that always succeeds. -/
def writeOk : String → List String → String → Option GoError := fun _ _ _ => none

/-- Position at a line and a column, for the examples. -/
def posAt (line col : Int) : Position := ⟨"a.proto", 0, line, col⟩

/-- Occurrence of `name` at a line and a column, for the examples. -/
def identAt (name : String) (line col : Int) : fieldIdent :=
  ⟨name, ⟨posAt line col, posAt line col⟩⟩

/-- Tracker holding the list `fixes` at `line` and nothing else. -/
def trackerAt (line : Int) (fixes : List fieldIdent) : Tracker :=
  fun k => if k = line then some fixes else none

/-- A visitor as `Apply` builds it (no failure yet, empty tracker). -/
def newVisitor (fixMode : Bool) (protoLines : List String) : Visitor :=
  { ruleID := "FIELD_NAMES_LOWER_SNAKE_CASE", failures := [], fixMode := fixMode,
    style := "", protoLines := protoLines, currentLevel := 0, newline := "\n",
    notInsertNewline := true, protoFileName := "a.proto", fieldIdent := emptyTracker }

/-- A character `%q` prints as itself: printable ASCII other than the double
quote and the backslash. -/
def isPlain (c : Char) : Bool :=
  0x20 ≤ c.toNat && c.toNat < 0x7F && c.toNat != 34 && c.toNat != 92

/-- The occurrences a sequence of declarations leaves at line `L`: those of
the declarations positioned on `L` whose name is not lower-snake-case. -/
def violationsAt (IsLowerSnakeCase : String → Bool) (L : Int) (decls : List Decl) :
    List fieldIdent :=
  decls.filterMap fun d =>
    if IsLowerSnakeCase d.name = false ∧ d.meta.Pos.Line = L then
      some ⟨d.name, d.meta⟩
    else none

/-- Extension of a loop state by what a run from the empty state produced. -/
def FixState.extend (st r : FixState) : FixState :=
  ⟨st.stdout ++ r.stdout, st.fixedLines ++ r.fixedLines⟩

/-- A string that `strings.Fields` returns as one token: not empty, no space
character. -/
def isToken (t : String) : Bool :=
  !t.data.isEmpty && t.data.all fun c => !isSpace c

/-! ## Applying the rule -/

/-- The struct `FieldNamesLowerSnakeCaseRule`. -/
structure FieldNamesLowerSnakeCaseRule where
  fixMode : Bool
deriving DecidableEq, Repr

/-- The constructor `NewFieldNamesLowerSnakeCaseRule`. -/
def NewFieldNamesLowerSnakeCaseRule (fixMode : Bool) : FieldNamesLowerSnakeCaseRule :=
  { fixMode := fixMode }

/-- The method `ID`. -/
def ID (_r : FieldNamesLowerSnakeCaseRule) : String := "FIELD_NAMES_LOWER_SNAKE_CASE"

/-- What the rule reads of `parser.Proto`: the file name of its metadata and
its field-like declarations, in document order. -/
structure Proto where
  Filename : String
  decls : List Decl
deriving DecidableEq, Repr

/-- What a call of `Apply` did: it panicked, or it returned the pair
`(failures, err)` (a nil slice is the empty list) after calling `visits` visit
callbacks, printing `stdout` and issuing the file writes `writes`. -/
inductive ApplyOutcome where
  | panic
  | ret (failures : List Failure) (err : Option GoError) (visits : Nat)
      (stdout : List String) (writes : List WriteCall)
deriving DecidableEq, Repr

/-- Modelled from the spec: `visitor.RunVisitor` walks the declarations once,
then runs the finalization step; an error of that step aborts the rule
application with no Failure list, otherwise the Failures of the walk are
returned. -/
def RunVisitor (IsLowerSnakeCase : String → Bool) (tbl : Char → Bool)
    (ToLowerSnake : String → String)
    (WriteLines : String → List String → String → Option GoError)
    (v : Visitor) (proto : Proto) : ApplyOutcome :=
  let v1 := visitAll IsLowerSnakeCase tbl proto.decls v
  match Finally ToLowerSnake WriteLines v1 with
  | .panic => .panic
  | .ret stdout writes (some err) => .ret [] (some err) proto.decls.length stdout writes
  | .ret stdout writes none => .ret v1.failures none proto.decls.length stdout writes

/-- The method `Apply`. `ReadAllLines` gives the result of
`osutil.ReadAllLines`. -/
def Apply (ReadAllLines : String → String → Except GoError (List String))
    (IsLowerSnakeCase : String → Bool) (tbl : Char → Bool)
    (ToLowerSnake : String → String)
    (WriteLines : String → List String → String → Option GoError)
    (r : FieldNamesLowerSnakeCaseRule) (proto : Proto) : ApplyOutcome :=
  let fileName := proto.Filename
  match ReadAllLines fileName "\n" with
  | .error err => .ret [] (some err) 0 [] []
  | .ok lines =>
    RunVisitor IsLowerSnakeCase tbl ToLowerSnake WriteLines
      { ruleID := ID r, failures := [], fixMode := r.fixMode, style := "",
        protoLines := lines, currentLevel := 0, newline := "\n",
        notInsertNewline := true, protoFileName := fileName,
        fieldIdent := emptyTracker }
      proto

/-- A file reader that fails, for the examples. -/
def readFails : String → String → Except GoError (List String) :=
  fun _ _ => .error "open a.proto: no such file or directory"

/-- A file reader that returns `lines`, for the examples. -/
def readOk (lines : List String) : String → String → Except GoError (List String) :=
  fun _ _ => .ok lines

/-! ## Substitutions on a token list -/

/-- One pass of the loop over the occurrences, on the token slice alone: the
token at index `Column-1` becomes its ToLowerSnake form; nothing changes when
the index is out of range (where `fix` panics). -/
def subst (ToLowerSnake : String → String) (toks : List String) (f : fieldIdent) :
    List String :=
  match index? toks (f.meta.Pos.Column - 1) with
  | some old => toks.set (f.meta.Pos.Column - 1).toNat (ToLowerSnake old)
  | none => toks

/-- The token slice after the occurrences `fs` were applied, first to last. -/
def substAll (ToLowerSnake : String → String) (fs : List fieldIdent)
    (toks : List String) : List String :=
  fs.foldl (subst ToLowerSnake) toks

/-- The lines built after each occurrence of `fs`, applied first to last. -/
def emitted (ToLowerSnake : String → String) :
    List fieldIdent → List String → List String
  | [], _ => []
  | f :: pending, toks =>
    fixedLineOf (subst ToLowerSnake toks f) ::
      emitted ToLowerSnake pending (subst ToLowerSnake toks f)

/-- The occurrence addresses a token of `toks`. -/
abbrev validColumn (toks : List String) (f : fieldIdent) : Prop :=
  1 ≤ f.meta.Pos.Column ∧ f.meta.Pos.Column ≤ (toks.length : Int)

/-- Sum over the lines of the buffer, from index `i` on, of the number of
recorded occurrences for a tracked line and of 1 for an untracked line. -/
def expectedLineCount (m : Tracker) : Nat → List String → Nat
  | _, [] => 0
  | i, _ :: rest =>
    (match m ((i : Int) + 1) with
     | some fixes => fixes.length
     | none => 1) + expectedLineCount m (i + 1) rest

/-! ## Properties of the visitor -/

theorem visit_eq (IsLowerSnakeCase : String → Bool) (tbl : Char → Bool) (v : Visitor)
    (d : Decl) :
    visit IsLowerSnakeCase tbl v d =
      if IsLowerSnakeCase d.name = false then
        (AddFailuref tbl (Record v d.meta.Pos.Line ⟨d.name, d.meta⟩) d.meta.Pos d.name,
          false)
      else (v, false) := by
  cases d <;>
    simp only [visit, VisitField, VisitMapField, VisitOneofField, Decl.name, Decl.meta] <;>
    cases IsLowerSnakeCase _ <;> simp

theorem appendEscapedRune_plain (tbl : Char → Bool) (c : Char) (h : isPlain c = true) :
    appendEscapedRune tbl c = [c] := by
  simp only [isPlain, Bool.and_eq_true, decide_eq_true_eq, bne_iff_ne, ne_eq] at h
  obtain ⟨⟨⟨h1, h2⟩, h3⟩, h4⟩ := h
  have hp : IsPrint tbl c = true := by
    simp only [IsPrint]
    rw [if_pos (by omega)]
    simp [h1, h2]
  simp [appendEscapedRune, h3, h4, hp]

theorem flatMap_plain (tbl : Char → Bool) (cs : List Char)
    (h : cs.all isPlain = true) : cs.flatMap (appendEscapedRune tbl) = cs := by
  induction cs with
  | nil => rfl
  | cons c cs ih =>
    simp only [List.all_cons, Bool.and_eq_true] at h
    simp [List.flatMap_cons, appendEscapedRune_plain tbl c h.1, ih h.2]

theorem Quote_plain (tbl : Char → Bool) (n : String) (h : n.data.all isPlain = true) :
    Quote tbl n = "\"" ++ n ++ "\"" := by
  apply String.ext
  simp only [Quote, flatMap_plain tbl n.data h, String.data_append]
  rfl

theorem visitAll_tracker (IsLowerSnakeCase : String → Bool) (tbl : Char → Bool)
    (L : Int) (decls : List Decl) (v : Visitor) :
    (visitAll IsLowerSnakeCase tbl decls v).fieldIdent L =
      if violationsAt IsLowerSnakeCase L decls = [] then v.fieldIdent L
      else some ((v.fieldIdent L).getD [] ++ violationsAt IsLowerSnakeCase L decls) := by
  induction decls generalizing v with
  | nil => simp [visitAll, violationsAt]
  | cons d ds ih =>
    rw [visitAll, ih, visit_eq]
    by_cases hn : IsLowerSnakeCase d.name = false
    · by_cases hl : d.meta.Pos.Line = L
      · have hv : violationsAt IsLowerSnakeCase L (d :: ds) =
            ⟨d.name, d.meta⟩ :: violationsAt IsLowerSnakeCase L ds := by
          simp [violationsAt, List.filterMap_cons, hn, hl]
        rw [hv, if_pos hn]
        simp only [AddFailuref, Record, recordAt, hl, if_true]
        by_cases he : violationsAt IsLowerSnakeCase L ds = [] <;> simp [he]
      · have hv : violationsAt IsLowerSnakeCase L (d :: ds) =
            violationsAt IsLowerSnakeCase L ds := by
          simp [violationsAt, List.filterMap_cons, hl]
        have hl2 : ¬ L = d.meta.Pos.Line := fun h => hl h.symm
        rw [hv, if_pos hn]
        simp only [AddFailuref, Record, recordAt, hl2, if_false]
    · have hv : violationsAt IsLowerSnakeCase L (d :: ds) =
          violationsAt IsLowerSnakeCase L ds := by
        simp [violationsAt, List.filterMap_cons, hn]
      rw [hv, if_neg hn]

theorem violationsAt_eq_nil_iff (IsLowerSnakeCase : String → Bool) (L : Int)
    (decls : List Decl) :
    violationsAt IsLowerSnakeCase L decls = [] ↔
      ¬ ∃ d ∈ decls, d.meta.Pos.Line = L ∧ IsLowerSnakeCase d.name = false := by
  simp only [violationsAt, List.filterMap_eq_nil_iff]
  constructor
  · rintro h ⟨d, hd, hl, hn⟩
    have := h d hd
    simp [hl, hn] at this
  · intro h d hd
    by_cases hc : IsLowerSnakeCase d.name = false ∧ d.meta.Pos.Line = L
    · exact absurd ⟨d, hd, hc.2, hc.1⟩ h
    · simp [hc]

theorem visitAll_failures_congr (IsLowerSnakeCase : String → Bool) (tbl : Char → Bool)
    (decls : List Decl) (v w : Visitor) (h : v.failures = w.failures) :
    (visitAll IsLowerSnakeCase tbl decls v).failures =
      (visitAll IsLowerSnakeCase tbl decls w).failures := by
  induction decls generalizing v w with
  | nil => simpa [visitAll] using h
  | cons d ds ih =>
    rw [visitAll, visitAll]
    apply ih
    rw [visit_eq, visit_eq]
    by_cases hn : IsLowerSnakeCase d.name = false
    · simp [hn, AddFailuref, Record, h]
    · simp [hn, h]

/-! ## Properties of the loops of `fix` -/

theorem fixLoopJ_frame (ToLowerSnake : String → String) (fs : List fieldIdent)
    (toks : List String) (st : FixState) :
    fixLoopJ ToLowerSnake fs toks st =
      (fixLoopJ ToLowerSnake fs toks ⟨[], []⟩).map st.extend := by
  induction fs generalizing toks st with
  | nil => simp [fixLoopJ, FixState.extend]
  | cons f fs ih =>
    simp only [fixLoopJ]
    cases index? toks (f.meta.Pos.Column - 1) with
    | none => rfl
    | some old =>
      simp only
      rw [ih, ih _ ⟨[] ++ _, [] ++ _⟩, Option.map_map]
      congr 1
      funext r
      simp [FixState.extend, List.append_assoc]

theorem fixLoopI_frame (ToLowerSnake : String → String) (m : Tracker) (i : Nat)
    (lines : List String) (st : FixState) :
    fixLoopI ToLowerSnake m i lines st =
      (fixLoopI ToLowerSnake m i lines ⟨[], []⟩).map st.extend := by
  induction lines generalizing i st with
  | nil => simp [fixLoopI, FixState.extend]
  | cons line rest ih =>
    simp only [fixLoopI]
    cases m ((i : Int) + 1) with
    | none =>
      simp only
      rw [ih, ih _ ⟨[], [] ++ _⟩, Option.map_map]
      congr 1
      funext r
      simp [FixState.extend, List.append_assoc]
    | some fixes =>
      simp only
      rw [fixLoopJ_frame]
      cases fixLoopJ ToLowerSnake fixes.reverse (Fields line) ⟨[], []⟩ with
      | none => rfl
      | some r =>
        simp only [Option.map_some', Option.some_bind]
        rw [ih, ih _ r, Option.map_map]
        congr 1
        funext q
        simp [FixState.extend, List.append_assoc]

theorem linesWrittenFrom_nil (ToLowerSnake : String → String) (m : Tracker) (i : Nat) :
    linesWrittenFrom ToLowerSnake m i [] = some [] := by
  simp [linesWrittenFrom, fixLoopI]

theorem linesWrittenFrom_cons (ToLowerSnake : String → String) (m : Tracker) (i : Nat)
    (line : String) (rest : List String) :
    linesWrittenFrom ToLowerSnake m i (line :: rest) =
      (lineOut ToLowerSnake m i line).bind fun b =>
        (linesWrittenFrom ToLowerSnake m (i + 1) rest).map fun c => b ++ c := by
  simp only [linesWrittenFrom, lineOut, fixLoopI]
  cases m ((i : Int) + 1) with
  | none =>
    simp only [Option.some_bind]
    rw [fixLoopI_frame]
    cases fixLoopI ToLowerSnake m (i + 1) rest ⟨[], []⟩ <;> simp [FixState.extend]
  | some fixes =>
    simp only
    cases fixLoopJ ToLowerSnake fixes.reverse (Fields line) ⟨[], []⟩ with
    | none => rfl
    | some r =>
      simp only [Option.map_some', Option.some_bind]
      rw [fixLoopI_frame]
      cases fixLoopI ToLowerSnake m (i + 1) rest ⟨[], []⟩ <;> simp [FixState.extend]

theorem linesWrittenFrom_append (ToLowerSnake : String → String) (m : Tracker) (i : Nat)
    (pre rest : List String) :
    linesWrittenFrom ToLowerSnake m i (pre ++ rest) =
      (linesWrittenFrom ToLowerSnake m i pre).bind fun a =>
        (linesWrittenFrom ToLowerSnake m (i + pre.length) rest).map fun c => a ++ c := by
  induction pre generalizing i with
  | nil =>
    simp only [List.nil_append, linesWrittenFrom_nil, Option.some_bind, List.length_nil,
      Nat.add_zero]
    cases linesWrittenFrom ToLowerSnake m i rest <;> simp
  | cons line pre ih =>
    rw [List.cons_append, linesWrittenFrom_cons, linesWrittenFrom_cons, ih]
    have hi : i + 1 + pre.length = i + (line :: pre).length := by
      simp only [List.length_cons]; omega
    rw [hi]
    cases lineOut ToLowerSnake m i line with
    | none => rfl
    | some b =>
      simp only [Option.some_bind]
      cases linesWrittenFrom ToLowerSnake m (i + 1) pre with
      | none => rfl
      | some a =>
        simp only [Option.map_some', Option.some_bind]
        cases linesWrittenFrom ToLowerSnake m (i + (line :: pre).length) rest <;>
          simp [List.append_assoc]

/-- Decomposition of the lines written around the line at index `pre.length`. -/
theorem linesWritten_split (ToLowerSnake : String → String) (m : Tracker)
    (pre : List String) (line : String) (post : List String) :
    linesWritten ToLowerSnake m (pre ++ line :: post) =
      (linesWrittenFrom ToLowerSnake m 0 pre).bind fun a =>
        (lineOut ToLowerSnake m pre.length line).bind fun b =>
          (linesWrittenFrom ToLowerSnake m (pre.length + 1) post).map fun c =>
            a ++ b ++ c := by
  rw [linesWritten, linesWrittenFrom_append, linesWrittenFrom_cons]
  simp only [Nat.zero_add]
  cases linesWrittenFrom ToLowerSnake m 0 pre with
  | none => rfl
  | some a =>
    simp only [Option.some_bind]
    cases lineOut ToLowerSnake m pre.length line with
    | none => rfl
    | some b =>
      simp only [Option.some_bind, Option.map_some']
      cases linesWrittenFrom ToLowerSnake m (pre.length + 1) post <;>
        simp [List.append_assoc]

theorem fix_eq (ToLowerSnake : String → String)
    (WriteLines : String → List String → String → Option GoError) (v : Visitor)
    (out : List String)
    (h : linesWritten ToLowerSnake v.fieldIdent v.protoLines = some out) :
    ∃ stdout, fix ToLowerSnake WriteLines v =
      .ret stdout [⟨v.protoFileName, out, v.newline⟩]
        (WriteLines v.protoFileName out v.newline) := by
  simp only [linesWritten, linesWrittenFrom] at h
  simp only [fix]
  cases hr : fixLoopI ToLowerSnake v.fieldIdent 0 v.protoLines ⟨[], []⟩ with
  | none => simp [hr] at h
  | some st =>
    simp only [hr, Option.map_some', Option.some.injEq] at h
    exact ⟨st.stdout, by simp [h]⟩

/-! ## Tokens and the rebuilt line -/

theorem fieldsAux_tokens (cs cur : List Char)
    (hcur : ∀ c ∈ cur, isSpace c = false) :
    ∀ l ∈ fieldsAux cs cur, l ≠ [] ∧ ∀ c ∈ l, isSpace c = false := by
  induction cs generalizing cur with
  | nil =>
    intro l hl
    by_cases hc : cur = []
    · simp [fieldsAux, hc] at hl
    · simp only [fieldsAux, hc, if_false, List.mem_singleton] at hl
      subst hl
      exact ⟨by simpa using hc, fun c h => hcur c (List.mem_reverse.mp h)⟩
  | cons c cs ih =>
    intro l hl
    by_cases hs : isSpace c = true
    · by_cases hc : cur = []
      · simp only [fieldsAux, hs, hc, if_true] at hl
        exact ih [] (by simp) l hl
      · simp only [fieldsAux, hs, hc, if_true, if_false, List.mem_cons] at hl
        rcases hl with hl | hl
        · subst hl
          exact ⟨by simpa using hc, fun c h => hcur c (List.mem_reverse.mp h)⟩
        · exact ih [] (by simp) l hl
    · simp only [fieldsAux, hs] at hl
      refine ih (c :: cur) ?_ l hl
      intro d hd
      rcases List.mem_cons.mp hd with h | h
      · subst h; simpa using hs
      · exact hcur d h

/-- No token of `strings.Fields` is the one-space string. -/
theorem Fields_ne_space (line : String) : ∀ t ∈ Fields line, t ≠ " " := by
  intro t ht h
  simp only [Fields, List.mem_map] at ht
  obtain ⟨l, hl, rfl⟩ := ht
  have hd : l = [Char.ofNat 32] := by
    have := congrArg String.data h
    simpa using this
  have := (fieldsAux_tokens line.data [] (by simp) l hl).2 (Char.ofNat 32) (by simp [hd])
  revert this
  decide

theorem fixedLineLoop_succ (ii : Nat) (ls : List String) (acc : String) :
    fixedLineLoop (ii + 1) ls acc = acc ++ spacedKeep ls := by
  induction ls generalizing ii acc with
  | nil => simp [fixedLineLoop, spacedKeep]
  | cons l ls ih =>
    simp only [fixedLineLoop, spacedKeep, Nat.add_one_ne_zero, if_false]
    rw [ih]
    by_cases h : (l != " ") = true
    · simp [h, String.append_assoc]
    · simp [h]

/-- Closed form of the line `fix` builds from a non-empty token slice. -/
theorem fixedLineOf_cons (l : String) (ls : List String) :
    fixedLineOf (l :: ls) = " " ++ spacedKeep (l :: ls) := by
  simp only [fixedLineOf, fixedLineLoop, spacedKeep, if_true]
  rw [fixedLineLoop_succ]
  by_cases h : (l != " ") = true
  · simp only [h, if_true, String.append_assoc]
    rfl
  · simp [h]

theorem spacedKeep_append (a b : List String) :
    spacedKeep (a ++ b) = spacedKeep a ++ spacedKeep b := by
  induction a with
  | nil => simp [spacedKeep]
  | cons t ts ih => simp [spacedKeep, ih, String.append_assoc]

theorem spacedKeep_eq_spaced (ts : List String) (h : ∀ t ∈ ts, t ≠ " ") :
    spacedKeep ts = spaced ts := by
  induction ts with
  | nil => rfl
  | cons t ts ih =>
    have ht : t ≠ " " := h t (by simp)
    simp only [spacedKeep, spaced]
    rw [ih (fun u hu => h u (by simp [hu]))]
    simp [ht, String.append_assoc]

theorem fixLoopI_untracked (ToLowerSnake : String → String) (m : Tracker)
    (h : ∀ k, m k = none) (i : Nat) (lines : List String) (st : FixState) :
    fixLoopI ToLowerSnake m i lines st = some ⟨st.stdout, st.fixedLines ++ lines⟩ := by
  induction lines generalizing i st with
  | nil => simp [fixLoopI]
  | cons line rest ih => simp [fixLoopI, h, ih, List.append_assoc]

/-! ## One line with one or two recorded occurrences -/

theorem index?_valid (toks : List String) (c : Int) (h1 : 1 ≤ c)
    (h2 : c ≤ (toks.length : Int)) :
    ∃ tok, toks[(c - 1).toNat]? = some tok ∧ index? toks (c - 1) = some tok ∧
      (c - 1).toNat < toks.length := by
  have hlt : (c - 1).toNat < toks.length := by omega
  refine ⟨toks[(c - 1).toNat], List.getElem?_eq_getElem hlt, ?_, hlt⟩
  simp only [index?]
  rw [if_pos (by omega)]
  exact List.getElem?_eq_getElem hlt

theorem lineOut_untracked (ToLowerSnake : String → String) (m : Tracker) (i : Nat)
    (line : String) (hm : m ((i : Int) + 1) = none) :
    lineOut ToLowerSnake m i line = some [line] := by
  simp [lineOut, hm]

theorem lineOut_one (ToLowerSnake : String → String) (m : Tracker) (i : Nat)
    (line : String) (f : fieldIdent) (tok : String)
    (hm : m ((i : Int) + 1) = some [f])
    (ht : index? (Fields line) (f.meta.Pos.Column - 1) = some tok) :
    lineOut ToLowerSnake m i line =
      some [fixedLineOf ((Fields line).set (f.meta.Pos.Column - 1).toNat
        (ToLowerSnake tok))] := by
  simp [lineOut, hm, fixLoopJ, ht]

theorem lineOut_two (ToLowerSnake : String → String) (m : Tracker) (i : Nat)
    (line : String) (f1 f2 : fieldIdent) (t1 t2 : String)
    (hm : m ((i : Int) + 1) = some [f1, f2])
    (h2 : index? (Fields line) (f2.meta.Pos.Column - 1) = some t2)
    (h1 : index? ((Fields line).set (f2.meta.Pos.Column - 1).toNat (ToLowerSnake t2))
      (f1.meta.Pos.Column - 1) = some t1) :
    lineOut ToLowerSnake m i line =
      some [fixedLineOf ((Fields line).set (f2.meta.Pos.Column - 1).toNat
          (ToLowerSnake t2)),
        fixedLineOf (((Fields line).set (f2.meta.Pos.Column - 1).toNat
          (ToLowerSnake t2)).set (f1.meta.Pos.Column - 1).toNat (ToLowerSnake t1))] := by
  simp only [lineOut, hm, List.reverse_cons, List.reverse_nil, List.nil_append,
    List.singleton_append, fixLoopJ, h2, h1, Option.map_some']

theorem fixedLineOf_set (toks : List String) (j : Nat) (new : String)
    (hj : j < toks.length) (hk : ∀ t ∈ toks, t ≠ " ") :
    fixedLineOf (toks.set j new) =
      " " ++ spaced (toks.take j) ++ (if new = " " then "" else " " ++ new) ++
        spaced (toks.drop (j + 1)) := by
  have hs : toks.set j new = toks.take j ++ new :: toks.drop (j + 1) := by
    rw [List.set_eq_take_append_cons_drop, if_pos hj]
  have hne : toks.set j new ≠ [] := by
    intro h
    have hlen : (toks.set j new).length = 0 := by rw [h]; rfl
    rw [List.length_set] at hlen
    omega
  obtain ⟨l, ls, hl⟩ := List.exists_cons_of_ne_nil hne
  rw [hl, fixedLineOf_cons, ← hl, hs, spacedKeep_append, spacedKeep,
    spacedKeep_eq_spaced _ (fun t ht => hk t (List.mem_of_mem_take ht)),
    spacedKeep_eq_spaced _ (fun t ht => hk t (List.mem_of_mem_drop ht))]
  by_cases hn : new = " "
  · simp [hn, String.append_assoc]
  · simp [hn, String.append_assoc]

/-! ## Splitting a rebuilt line again -/

theorem fieldsAux_run (l rest cur : List Char) (h : ∀ c ∈ l, isSpace c = false) :
    fieldsAux (l ++ rest) cur = fieldsAux rest (l.reverse ++ cur) := by
  induction l generalizing cur with
  | nil => rfl
  | cons c l ih =>
    have hc : isSpace c = false := h c (by simp)
    rw [List.cons_append, fieldsAux]
    simp only [hc, Bool.false_eq_true, if_false]
    rw [ih _ (fun d hd => h d (by simp [hd]))]
    simp

theorem isToken_iff (t : String) :
    isToken t = true ↔ t.data ≠ [] ∧ ∀ c ∈ t.data, isSpace c = false := by
  simp [isToken, List.isEmpty_iff]

theorem spaced_data (T : List String) :
    (spaced T).data = T.flatMap fun t => Char.ofNat 32 :: t.data := by
  induction T with
  | nil => rfl
  | cons t ts ih =>
    simp only [spaced, String.data_append, ih, List.flatMap_cons]
    rfl

theorem fieldsAux_spaced (T : List String) (cur : List Char)
    (h : ∀ t ∈ T, isToken t = true) :
    fieldsAux (T.flatMap fun t => Char.ofNat 32 :: t.data) cur =
      if cur = [] then T.map String.data else cur.reverse :: T.map String.data := by
  induction T generalizing cur with
  | nil => simp [fieldsAux]
  | cons t ts ih =>
    obtain ⟨hne, hns⟩ := (isToken_iff t).mp (h t (by simp))
    have hsp : isSpace (Char.ofNat 32) = true := by decide
    have hrev : t.data.reverse ≠ [] := by simpa using hne
    rw [List.flatMap_cons, List.cons_append, fieldsAux]
    simp only [hsp, if_true]
    rw [fieldsAux_run t.data _ [] hns, List.append_nil,
      ih _ (fun u hu => h u (by simp [hu]))]
    simp only [hrev, if_false, List.reverse_reverse, List.map_cons]

/-- Splitting the line built from tokens gives those tokens back. -/
theorem Fields_fixedLineOf (T : List String) (h : ∀ t ∈ T, isToken t = true) :
    Fields (fixedLineOf T) = T := by
  cases T with
  | nil => decide
  | cons l ls =>
    have hk : ∀ t ∈ l :: ls, t ≠ " " := by
      intro t ht he
      have := h t ht
      rw [he] at this
      revert this
      decide
    rw [fixedLineOf_cons, spacedKeep_eq_spaced _ hk]
    have hsp : isSpace (Char.ofNat 32) = true := by decide
    have hd : (" " ++ spaced (l :: ls)).data =
        Char.ofNat 32 :: (l :: ls).flatMap fun t => Char.ofNat 32 :: t.data := by
      rw [String.data_append, spaced_data]
      rfl
    simp only [Fields, hd]
    rw [fieldsAux]
    simp only [hsp, if_true]
    rw [fieldsAux_spaced _ _ h]
    simp only [if_true, List.map_map]
    have hid : (String.mk ∘ String.data) = id := by funext t; rfl
    rw [hid, List.map_id]

theorem Fields_isToken (line : String) : ∀ t ∈ Fields line, isToken t = true := by
  intro t ht
  simp only [Fields, List.mem_map] at ht
  obtain ⟨l, hl, rfl⟩ := ht
  have := fieldsAux_tokens line.data [] (by simp) l hl
  exact (isToken_iff _).mpr ⟨this.1, this.2⟩

theorem set_isToken (toks : List String) (j : Nat) (new : String)
    (h : ∀ t ∈ toks, isToken t = true) (hn : isToken new = true) :
    ∀ t ∈ toks.set j new, isToken t = true := by
  intro t ht
  rcases List.mem_or_eq_of_mem_set ht with h1 | h1
  · exact h t h1
  · rw [h1]; exact hn

/-! ## Panics and the lines of a tracked line -/

theorem index?_invalid (toks : List String) (c : Int)
    (h : ¬ (1 ≤ c ∧ c ≤ (toks.length : Int))) : index? toks (c - 1) = none := by
  simp only [index?]
  by_cases h0 : 0 ≤ c - 1
  · rw [if_pos h0]
    exact List.getElem?_eq_none (by omega)
  · rw [if_neg h0]

theorem subst_valid (ToLowerSnake : String → String) (toks : List String)
    (f : fieldIdent) (old : String)
    (h : index? toks (f.meta.Pos.Column - 1) = some old) :
    subst ToLowerSnake toks f =
      toks.set (f.meta.Pos.Column - 1).toNat (ToLowerSnake old) := by
  simp only [subst, h]

theorem subst_length (ToLowerSnake : String → String) (toks : List String)
    (f : fieldIdent) : (subst ToLowerSnake toks f).length = toks.length := by
  simp only [subst]
  cases index? toks (f.meta.Pos.Column - 1) <;> simp

theorem substAll_length (ToLowerSnake : String → String) (fs : List fieldIdent)
    (toks : List String) : (substAll ToLowerSnake fs toks).length = toks.length := by
  induction fs generalizing toks with
  | nil => rfl
  | cons f fs ih =>
    simp only [substAll, List.foldl_cons] at ih ⊢
    rw [ih, subst_length]

theorem fixLoopJ_valid (ToLowerSnake : String → String) (fs : List fieldIdent)
    (toks : List String) (st : FixState) (h : ∀ f ∈ fs, validColumn toks f) :
    ∃ so, fixLoopJ ToLowerSnake fs toks st =
      some ⟨so, st.fixedLines ++ emitted ToLowerSnake fs toks⟩ := by
  induction fs generalizing toks st with
  | nil => exact ⟨st.stdout, by simp [fixLoopJ, emitted]⟩
  | cons f fs ih =>
    obtain ⟨old, _, hidx, _⟩ := index?_valid toks _ (h f (by simp)).1 (h f (by simp)).2
    have hs := subst_valid ToLowerSnake toks f old hidx
    have hv : ∀ g ∈ fs, validColumn (subst ToLowerSnake toks f) g := by
      intro g hg
      have := h g (by simp [hg])
      simpa only [validColumn, subst_length] using this
    simp only [fixLoopJ, hidx, emitted]
    rw [← hs]
    obtain ⟨so, hso⟩ := ih (subst ToLowerSnake toks f)
      ⟨st.stdout ++ [printlnFix old (ToLowerSnake old)],
        st.fixedLines ++ [fixedLineOf (subst ToLowerSnake toks f)]⟩ hv
    exact ⟨so, by rw [hso]; simp [List.append_assoc]⟩

theorem fixLoopJ_invalid (ToLowerSnake : String → String) (fs : List fieldIdent)
    (toks : List String) (st : FixState) (h : ∃ f ∈ fs, ¬ validColumn toks f) :
    fixLoopJ ToLowerSnake fs toks st = none := by
  induction fs generalizing toks st with
  | nil => obtain ⟨f, hf, _⟩ := h; cases hf
  | cons g fs ih =>
    by_cases hg : validColumn toks g
    · obtain ⟨old, _, hidx, _⟩ := index?_valid toks _ hg.1 hg.2
      obtain ⟨f, hf, hbad⟩ := h
      have hf2 : f ∈ fs := by
        rcases List.mem_cons.mp hf with h1 | h1
        · subst h1; exact absurd hg hbad
        · exact h1
      simp only [fixLoopJ, hidx]
      apply ih
      refine ⟨f, hf2, ?_⟩
      simpa only [validColumn, List.length_set] using hbad
    · simp only [fixLoopJ, index?_invalid toks _ hg]

theorem lineOut_valid (ToLowerSnake : String → String) (m : Tracker) (i : Nat)
    (line : String) (fixes : List fieldIdent) (hm : m ((i : Int) + 1) = some fixes)
    (h : ∀ f ∈ fixes, validColumn (Fields line) f) :
    lineOut ToLowerSnake m i line =
      some (emitted ToLowerSnake fixes.reverse (Fields line)) := by
  obtain ⟨so, hso⟩ := fixLoopJ_valid ToLowerSnake fixes.reverse (Fields line) ⟨[], []⟩
    (fun f hf => h f (List.mem_reverse.mp hf))
  simp [lineOut, hm, hso]

theorem lineOut_invalid (ToLowerSnake : String → String) (m : Tracker) (i : Nat)
    (line : String) (fixes : List fieldIdent) (hm : m ((i : Int) + 1) = some fixes)
    (h : ∃ f ∈ fixes, ¬ validColumn (Fields line) f) :
    lineOut ToLowerSnake m i line = none := by
  obtain ⟨f, hf, hbad⟩ := h
  simp [lineOut, hm, fixLoopJ_invalid ToLowerSnake fixes.reverse (Fields line) ⟨[], []⟩
    ⟨f, List.mem_reverse.mpr hf, hbad⟩]

theorem emitted_length (ToLowerSnake : String → String) (fs : List fieldIdent)
    (toks : List String) : (emitted ToLowerSnake fs toks).length = fs.length := by
  induction fs generalizing toks with
  | nil => rfl
  | cons f fs ih => simp [emitted, ih]

theorem emitted_getElem? (ToLowerSnake : String → String) (fs : List fieldIdent)
    (toks : List String) (k : Nat) (hk : k < fs.length) :
    (emitted ToLowerSnake fs toks)[k]? =
      some (fixedLineOf (substAll ToLowerSnake (fs.take (k + 1)) toks)) := by
  induction fs generalizing toks k with
  | nil => cases hk
  | cons f fs ih =>
    cases k with
    | zero => simp [emitted, substAll]
    | succ k =>
      have hk2 : k < fs.length := by simpa using hk
      simp only [emitted, List.getElem?_cons_succ, List.take_succ_cons]
      rw [ih _ k hk2]
      rfl

/-! ## Completion of `fix` and the number of lines written -/

theorem linesWrittenFrom_isSome_iff (ToLowerSnake : String → String) (m : Tracker)
    (i : Nat) (lines : List String) :
    (linesWrittenFrom ToLowerSnake m i lines).isSome = true ↔
      ∀ (k : Nat) (line : String), lines[k]? = some line →
        ∀ fixes, m (((i + k : Nat) : Int) + 1) = some fixes →
          ∀ f ∈ fixes, validColumn (Fields line) f := by
  induction lines generalizing i with
  | nil => simp [linesWrittenFrom_nil]
  | cons line rest ih =>
    rw [linesWrittenFrom_cons]
    have hshift : (∀ (k : Nat) (l : String), rest[k]? = some l →
        ∀ fixes, m (((i + 1 + k : Nat) : Int) + 1) = some fixes →
          ∀ f ∈ fixes, validColumn (Fields l) f) ↔
        (∀ (k : Nat) (l : String), (line :: rest)[k + 1]? = some l →
        ∀ fixes, m (((i + (k + 1) : Nat) : Int) + 1) = some fixes →
          ∀ f ∈ fixes, validColumn (Fields l) f) := by
      constructor
      · intro h k l hl fixes hm
        have e : i + (k + 1) = i + 1 + k := by omega
        rw [e] at hm
        exact h k l (by simpa using hl) fixes hm
      · intro h k l hl fixes hm
        have e : i + 1 + k = i + (k + 1) := by omega
        rw [e] at hm
        exact h k l (by simpa using hl) fixes hm
    have hhead : (∀ fixes, m ((i : Int) + 1) = some fixes →
        ∀ f ∈ fixes, validColumn (Fields line) f) →
        ((lineOut ToLowerSnake m i line).bind fun b =>
          (linesWrittenFrom ToLowerSnake m (i + 1) rest).map fun c => b ++ c).isSome =
        (linesWrittenFrom ToLowerSnake m (i + 1) rest).isSome := by
      intro hv
      cases hm : m ((i : Int) + 1) with
      | none =>
        rw [lineOut_untracked ToLowerSnake m i line hm]
        cases linesWrittenFrom ToLowerSnake m (i + 1) rest <;> rfl
      | some fixes =>
        rw [lineOut_valid ToLowerSnake m i line fixes hm (hv fixes hm)]
        cases linesWrittenFrom ToLowerSnake m (i + 1) rest <;> rfl
    constructor
    · intro h k l hl fixes hm
      have hv : ∀ fixes, m ((i : Int) + 1) = some fixes →
          ∀ f ∈ fixes, validColumn (Fields line) f := by
        intro fixes hm f hf
        by_contra hbad
        rw [lineOut_invalid ToLowerSnake m i line fixes hm ⟨f, hf, hbad⟩] at h
        cases h
      cases k with
      | zero =>
        simp only [List.getElem?_cons_zero, Option.some.injEq] at hl
        subst hl
        exact hv fixes (by simpa using hm)
      | succ k =>
        rw [hhead hv, ih] at h
        exact (hshift.mp h) k l hl fixes hm
    · intro h
      have hv : ∀ fixes, m ((i : Int) + 1) = some fixes →
          ∀ f ∈ fixes, validColumn (Fields line) f := by
        intro fixes hm
        exact h 0 line (by simp) fixes (by simpa using hm)
      rw [hhead hv, ih]
      exact hshift.mpr (fun k l hl fixes hm => h (k + 1) l hl fixes hm)

theorem lineOut_congr (ToLowerSnake : String → String) (m n : Tracker) (i : Nat)
    (line : String) (h : m ((i : Int) + 1) = n ((i : Int) + 1)) :
    lineOut ToLowerSnake m i line = lineOut ToLowerSnake n i line := by
  simp only [lineOut, h]

theorem linesWrittenFrom_congr (ToLowerSnake : String → String) (m n : Tracker)
    (i : Nat) (lines : List String)
    (h : ∀ k, k < lines.length → m (((i + k : Nat) : Int) + 1) = n (((i + k : Nat) : Int) + 1)) :
    linesWrittenFrom ToLowerSnake m i lines = linesWrittenFrom ToLowerSnake n i lines := by
  induction lines generalizing i with
  | nil => simp [linesWrittenFrom_nil]
  | cons line rest ih =>
    rw [linesWrittenFrom_cons, linesWrittenFrom_cons,
      lineOut_congr ToLowerSnake m n i line (by simpa using h 0 (by simp)),
      ih (i + 1) (fun k hk => by
        have := h (k + 1) (by simpa using hk)
        have e : i + (k + 1) = i + 1 + k := by omega
        rwa [e] at this)]

theorem lineOut_length (ToLowerSnake : String → String) (m : Tracker) (i : Nat)
    (line : String) (b : List String) (h : lineOut ToLowerSnake m i line = some b) :
    b.length = (match m ((i : Int) + 1) with
      | some fixes => fixes.length
      | none => 1) := by
  cases hm : m ((i : Int) + 1) with
  | none =>
    rw [lineOut_untracked ToLowerSnake m i line hm] at h
    cases h
    rfl
  | some fixes =>
    by_cases hv : ∀ f ∈ fixes, validColumn (Fields line) f
    · rw [lineOut_valid ToLowerSnake m i line fixes hm hv] at h
      cases h
      simp [emitted_length]
    · have hex : ∃ f ∈ fixes, ¬ validColumn (Fields line) f := by
        by_contra hc
        exact hv (fun f hf => by
          by_contra hbad
          exact hc ⟨f, hf, hbad⟩)
      rw [lineOut_invalid ToLowerSnake m i line fixes hm hex] at h
      cases h

theorem linesWrittenFrom_length (ToLowerSnake : String → String) (m : Tracker)
    (i : Nat) (lines out : List String)
    (h : linesWrittenFrom ToLowerSnake m i lines = some out) :
    out.length = expectedLineCount m i lines := by
  induction lines generalizing i out with
  | nil =>
    rw [linesWrittenFrom_nil] at h
    cases h
    rfl
  | cons line rest ih =>
    rw [linesWrittenFrom_cons] at h
    cases hb : lineOut ToLowerSnake m i line with
    | none => rw [hb] at h; cases h
    | some b =>
      cases hc : linesWrittenFrom ToLowerSnake m (i + 1) rest with
      | none => rw [hb, hc] at h; cases h
      | some c =>
        rw [hb, hc] at h
        simp only [Option.some_bind, Option.map_some', Option.some.injEq] at h
        subst h
        rw [List.length_append, lineOut_length ToLowerSnake m i line b hb, ih (i + 1) c hc]
        rfl

/-! ## Order of the substitutions -/

theorem subst_getElem? (ToLowerSnake : String → String) (toks : List String)
    (f : fieldIdent) (k : Nat) :
    (subst ToLowerSnake toks f)[k]? =
      if 0 ≤ f.meta.Pos.Column - 1 ∧ k = (f.meta.Pos.Column - 1).toNat then
        toks[k]?.map ToLowerSnake
      else toks[k]? := by
  simp only [subst, index?]
  by_cases h0 : 0 ≤ f.meta.Pos.Column - 1
  · rw [if_pos h0]
    cases hj : toks[(f.meta.Pos.Column - 1).toNat]? with
    | none =>
      by_cases hk : k = (f.meta.Pos.Column - 1).toNat
      · subst hk
        rw [if_pos ⟨h0, rfl⟩, hj]
        rfl
      · rw [if_neg (fun h => hk h.2)]
    | some old =>
      have hlt : (f.meta.Pos.Column - 1).toNat < toks.length :=
        (List.getElem?_eq_some_iff.mp hj).1
      by_cases hk : k = (f.meta.Pos.Column - 1).toNat
      · subst hk
        rw [if_pos ⟨h0, rfl⟩, hj]
        exact List.getElem?_set_self hlt
      · rw [if_neg (fun h => hk h.2)]
        exact List.getElem?_set_ne (Ne.symm hk)
  · rw [if_neg h0, if_neg (fun h => h0 h.1)]

theorem subst_comm (ToLowerSnake : String → String) (toks : List String)
    (f g : fieldIdent) :
    subst ToLowerSnake (subst ToLowerSnake toks f) g =
      subst ToLowerSnake (subst ToLowerSnake toks g) f := by
  apply List.ext_getElem?
  intro k
  simp only [subst_getElem?]
  split_ifs <;> rfl

theorem substAll_perm (ToLowerSnake : String → String) (fs gs : List fieldIdent)
    (toks : List String) (p : fs.Perm gs) :
    substAll ToLowerSnake fs toks = substAll ToLowerSnake gs toks :=
  List.Perm.foldl_eq' p (fun x _ y _ z => subst_comm ToLowerSnake z x y) toks

theorem emitted_getLast? (ToLowerSnake : String → String) (fs : List fieldIdent)
    (toks : List String) (h : fs ≠ []) :
    (emitted ToLowerSnake fs toks).getLast? =
      some (fixedLineOf (substAll ToLowerSnake fs toks)) := by
  have hpos : 0 < fs.length := List.length_pos.mpr h
  rw [List.getLast?_eq_getElem?, emitted_length,
    emitted_getElem? ToLowerSnake fs toks (fs.length - 1) (by omega)]
  have e : fs.length - 1 + 1 = fs.length := by omega
  rw [e, List.take_length]

/-! ## The rebuilt line as a join -/

theorem intercalate_go_space (acc : String) (ts : List String) :
    String.intercalate.go acc " " ts = acc ++ spaced ts := by
  induction ts generalizing acc with
  | nil => simp [String.intercalate.go, spaced]
  | cons t ts ih =>
    rw [String.intercalate.go, ih]
    simp only [spaced, String.append_assoc]

theorem fixedLineOf_intercalate (T : List String) (hne : T ≠ [])
    (h : ∀ t ∈ T, t ≠ " ") : fixedLineOf T = "  " ++ " ".intercalate T := by
  cases T with
  | nil => exact absurd rfl hne
  | cons t ts =>
    rw [fixedLineOf_cons, spacedKeep_eq_spaced _ h]
    simp only [String.intercalate, intercalate_go_space, spaced]
    rw [← String.append_assoc, ← String.append_assoc]
    rfl

theorem subst_ne_space (ToLowerSnake : String → String) (toks : List String)
    (f : fieldIdent) (hc : ∀ s, ToLowerSnake s ≠ " ") (h : ∀ t ∈ toks, t ≠ " ") :
    ∀ t ∈ subst ToLowerSnake toks f, t ≠ " " := by
  intro t ht
  simp only [subst] at ht
  cases hi : index? toks (f.meta.Pos.Column - 1) with
  | none => rw [hi] at ht; exact h t ht
  | some old =>
    rw [hi] at ht
    rcases List.mem_or_eq_of_mem_set ht with h1 | h1
    · exact h t h1
    · rw [h1]; exact hc old

theorem substAll_ne_space (ToLowerSnake : String → String) (fs : List fieldIdent)
    (toks : List String) (hc : ∀ s, ToLowerSnake s ≠ " ") (h : ∀ t ∈ toks, t ≠ " ") :
    ∀ t ∈ substAll ToLowerSnake fs toks, t ≠ " " := by
  induction fs generalizing toks with
  | nil => exact h
  | cons f fs ih =>
    simp only [substAll, List.foldl_cons] at ih ⊢
    exact ih _ (subst_ne_space ToLowerSnake toks f hc h)

/-! ## The converter of the examples and the rule application -/

theorem toLower_ne_space (c : Char) (h : c.isAlphanum = true) :
    c.toLower ≠ Char.ofNat 32 := by
  have hup : ∀ n : Nat, 65 ≤ n → n ≤ 90 → Char.ofNat (n + 32) ≠ Char.ofNat 32 := by
    intro n h1 h2
    interval_cases n <;> decide
  simp only [Char.toLower]
  by_cases hc : c.toNat ≥ 65 ∧ c.toNat ≤ 90
  · rw [if_pos hc]
    exact hup _ hc.1 hc.2
  · rw [if_neg hc]
    intro he
    rw [he] at h
    revert h
    decide

theorem snakeAux_ne_space (prev : Option Char) (cs : List Char) :
    ∀ c ∈ strs.snakeAux prev cs, c ≠ Char.ofNat 32 := by
  induction cs generalizing prev with
  | nil => intro c hc; simp [strs.snakeAux] at hc
  | cons d ds ih =>
    intro c hc
    have h1 : (if d.isAlphanum = true then d.toLower else Char.ofNat 95) ≠ Char.ofNat 32 := by
      by_cases hd : d.isAlphanum = true
      · rw [if_pos hd]; exact toLower_ne_space d hd
      · rw [if_neg hd]; decide
    simp only [strs.snakeAux, List.mem_append] at hc
    rcases hc with hc | hc
    · split at hc
      · simp only [List.mem_cons, List.mem_singleton, List.not_mem_nil, or_false] at hc
        rcases hc with hc | hc
        · rw [hc]; decide
        · rw [hc]; exact h1
      · simp only [List.mem_singleton] at hc
        rw [hc]; exact h1
    · exact ih _ c hc

theorem collapse_subset (n : Nat) (cs : List Char) (hn : cs.length ≤ n) :
    ∀ c ∈ strs.collapse cs, c ∈ cs := by
  induction n generalizing cs with
  | zero =>
    have : cs = [] := List.length_eq_zero.mp (by omega)
    subst this
    intro c hc
    simp [strs.collapse] at hc
  | succ n ih =>
    match cs, hn with
    | [], _ => intro c hc; simp [strs.collapse] at hc
    | [a], _ => intro c hc; simpa [strs.collapse] using hc
    | a :: b :: rest, hn =>
      intro c hc
      have hlen : (b :: rest).length ≤ n := by
        simp only [List.length_cons] at hn ⊢
        omega
      simp only [strs.collapse] at hc
      split at hc
      · exact List.mem_cons_of_mem _ (ih _ hlen c hc)
      · rcases List.mem_cons.mp hc with h1 | h1
        · rw [h1]; exact List.mem_cons_self _ _
        · exact List.mem_cons_of_mem _ (ih _ hlen c h1)

/-- The converter of the examples never returns the one-space string. -/
theorem ToLowerSnake_ne_space (s : String) : strs.ToLowerSnake s ≠ " " := by
  intro h
  have hd : strs.collapse (strs.snakeAux none s.data) = [Char.ofNat 32] := by
    have := congrArg String.data h
    simpa [strs.ToLowerSnake] using this
  have hm : Char.ofNat 32 ∈ strs.collapse (strs.snakeAux none s.data) := by
    rw [hd]; exact List.mem_singleton.mpr rfl
  exact snakeAux_ne_space none s.data _ (collapse_subset _ _ (Nat.le_refl _) _ hm) rfl

theorem visitAll_fixMode (IsLowerSnakeCase : String → Bool) (tbl : Char → Bool)
    (decls : List Decl) (v : Visitor) :
    (visitAll IsLowerSnakeCase tbl decls v).fixMode = v.fixMode := by
  induction decls generalizing v with
  | nil => rfl
  | cons d ds ih =>
    rw [visitAll, ih, visit_eq]
    by_cases hn : IsLowerSnakeCase d.name = false
    · simp [hn, AddFailuref, Record]
    · simp [hn]

theorem fixLoopI_congr (ToLowerSnake : String → String) (m n : Tracker) (i : Nat)
    (lines : List String) (st : FixState)
    (h : ∀ k, k < lines.length →
      m (((i + k : Nat) : Int) + 1) = n (((i + k : Nat) : Int) + 1)) :
    fixLoopI ToLowerSnake m i lines st = fixLoopI ToLowerSnake n i lines st := by
  induction lines generalizing i st with
  | nil => rfl
  | cons line rest ih =>
    have h0 : m ((i : Int) + 1) = n ((i : Int) + 1) := by simpa using h 0 (by simp)
    have hr : ∀ st, fixLoopI ToLowerSnake m (i + 1) rest st =
        fixLoopI ToLowerSnake n (i + 1) rest st := fun st =>
      ih (i + 1) st (fun k hk => by
        have := h (k + 1) (by simpa using hk)
        have e : i + (k + 1) = i + 1 + k := by omega
        rwa [e] at this)
    simp only [fixLoopI, h0, hr]

theorem fix_ne_panic_iff (ToLowerSnake : String → String)
    (WriteLines : String → List String → String → Option GoError) (v : Visitor) :
    fix ToLowerSnake WriteLines v ≠ .panic ↔
      (linesWritten ToLowerSnake v.fieldIdent v.protoLines).isSome = true := by
  simp only [fix, linesWritten, linesWrittenFrom]
  cases fixLoopI ToLowerSnake v.fieldIdent 0 v.protoLines ⟨[], []⟩ <;> simp

/-- Effect of one visit, the message given with the name as the verb %q
quotes it. -/
theorem visit_effect (IsLowerSnakeCase : String → Bool) (tbl : Char → Bool)
    (v : Visitor) (d : Decl) :
    (IsLowerSnakeCase d.name = false →
      (visit IsLowerSnakeCase tbl v d).1.failures =
        v.failures ++ [⟨d.meta.Pos,
          "Field name " ++ Quote tbl d.name ++ " must be underscore_separated_names"⟩] ∧
      (visit IsLowerSnakeCase tbl v d).1.fieldIdent d.meta.Pos.Line =
        some ((v.fieldIdent d.meta.Pos.Line).getD [] ++ [⟨d.name, d.meta⟩]) ∧
      ∀ k, k ≠ d.meta.Pos.Line →
        (visit IsLowerSnakeCase tbl v d).1.fieldIdent k = v.fieldIdent k) ∧
    (IsLowerSnakeCase d.name = true → (visit IsLowerSnakeCase tbl v d).1 = v) := by
  refine ⟨fun hn => ?_, fun hn => ?_⟩
  · rw [visit_eq, if_pos hn]
    refine ⟨rfl, by simp [AddFailuref, Record, recordAt], fun k hk => ?_⟩
    simp [AddFailuref, Record, recordAt, hk]
  · rw [visit_eq, if_neg (by simp [hn])]

/-! ## The claims -/

/-- C1. Each visit callback (VisitField, VisitMapField, VisitOneofField, to
which `visit` dispatches), on a declaration with name n and position p, n
having only characters that the verb %q prints as they are (printable ASCII
other than the double quote and the backslash, as every identifier has): if
IsLowerSnakeCase(n) is false, the visit appends exactly one Failure, at
position p, with message `Field name "n" must be underscore_separated_names`,
and appends exactly one occurrence (n, meta) to the tracker's list under key
p.Line, leaving every other key as it was; if IsLowerSnakeCase(n) is true the
visitor, hence the Failure list and the tracker, is unchanged. -/
theorem visit_records_and_reports (IsLowerSnakeCase : String → Bool) (tbl : Char → Bool)
    (v : Visitor) (d : Decl) (hp : d.name.data.all isPlain = true) :
    (IsLowerSnakeCase d.name = false →
      (visit IsLowerSnakeCase tbl v d).1.failures =
        v.failures ++ [⟨d.meta.Pos,
          "Field name \"" ++ d.name ++ "\" must be underscore_separated_names"⟩] ∧
      (visit IsLowerSnakeCase tbl v d).1.fieldIdent d.meta.Pos.Line =
        some ((v.fieldIdent d.meta.Pos.Line).getD [] ++ [⟨d.name, d.meta⟩]) ∧
      ∀ k, k ≠ d.meta.Pos.Line →
        (visit IsLowerSnakeCase tbl v d).1.fieldIdent k = v.fieldIdent k) ∧
    (IsLowerSnakeCase d.name = true → (visit IsLowerSnakeCase tbl v d).1 = v) := by
  have h := visit_effect IsLowerSnakeCase tbl v d
  refine ⟨fun hn => ⟨?_, (h.1 hn).2.1, (h.1 hn).2.2⟩, h.2⟩
  have e1 : ("Field name \"" : String) = "Field name " ++ "\"" := by decide
  have e2 : ("\" must be underscore_separated_names" : String) =
      "\"" ++ " must be underscore_separated_names" := by decide
  rw [(h.1 hn).1, Quote_plain tbl d.name hp, e1, e2]
  simp only [String.append_assoc]

/-- C1 at the field `userId` of line 4 (scenario 1): one Failure with the
stated message, one occurrence recorded at line 4; and at the map field
`user_map`: nothing reported. -/
theorem visit_records_and_reports_witness :
    "userId".data.all isPlain = true ∧
    strs.IsLowerSnakeCase "userId" = false ∧
    (visit strs.IsLowerSnakeCase noTable (newVisitor false [])
        (.field ⟨"userId", ⟨posAt 4 3, posAt 4 20⟩⟩)).1.failures =
      [⟨posAt 4 3, "Field name \"userId\" must be underscore_separated_names"⟩] ∧
    (visit strs.IsLowerSnakeCase noTable (newVisitor false [])
        (.field ⟨"userId", ⟨posAt 4 3, posAt 4 20⟩⟩)).1.fieldIdent 4 =
      some [⟨"userId", ⟨posAt 4 3, posAt 4 20⟩⟩] ∧
    "user_map".data.all isPlain = true ∧
    strs.IsLowerSnakeCase "user_map" = true ∧
    (visit strs.IsLowerSnakeCase noTable (newVisitor false [])
        (.mapField ⟨"user_map", ⟨posAt 5 3, posAt 5 20⟩⟩)).1.failures = [] := by
  have h := visit_records_and_reports strs.IsLowerSnakeCase noTable (newVisitor false [])
    (.field ⟨"userId", ⟨posAt 4 3, posAt 4 20⟩⟩) (by decide)
  have h2 := visit_records_and_reports strs.IsLowerSnakeCase noTable (newVisitor false [])
    (.mapField ⟨"user_map", ⟨posAt 5 3, posAt 5 20⟩⟩) (by decide)
  refine ⟨by decide, by decide, (h.1 (by decide)).1, (h.1 (by decide)).2.1, by decide,
    by decide, ?_⟩
  rw [h2.2 (by decide)]
  rfl

/-- C2 (amended). On a line with one recorded occurrence whose column
addresses an existing token, `fix` writes one line in place of it: a space,
then every token of the original line preceded by one space, in order, the
addressed token replaced by its ToLowerSnake form (left out if that form is
the one-space string). The other tokens are kept, the whitespace is not: when
the new token is itself a token, splitting the written line gives the original
tokens with only the addressed one changed. -/
theorem fix_single_occurrence_keeps_other_tokens (ToLowerSnake : String → String)
    (m : Tracker) (pre : List String) (line : String) (post : List String)
    (f : fieldIdent)
    (hm : m ((pre.length : Int) + 1) = some [f])
    (h1 : 1 ≤ f.meta.Pos.Column)
    (h2 : f.meta.Pos.Column ≤ ((Fields line).length : Int)) :
    ∃ tok, (Fields line)[(f.meta.Pos.Column - 1).toNat]? = some tok ∧
      linesWritten ToLowerSnake m (pre ++ line :: post) =
        ((linesWrittenFrom ToLowerSnake m 0 pre).bind fun a =>
          (linesWrittenFrom ToLowerSnake m (pre.length + 1) post).map fun c =>
            a ++ [fixedLineOf ((Fields line).set (f.meta.Pos.Column - 1).toNat
              (ToLowerSnake tok))] ++ c) ∧
      fixedLineOf ((Fields line).set (f.meta.Pos.Column - 1).toNat (ToLowerSnake tok)) =
        " " ++ spaced ((Fields line).take (f.meta.Pos.Column - 1).toNat) ++
          (if ToLowerSnake tok = " " then "" else " " ++ ToLowerSnake tok) ++
          spaced ((Fields line).drop ((f.meta.Pos.Column - 1).toNat + 1)) ∧
      (isToken (ToLowerSnake tok) = true →
        Fields (fixedLineOf ((Fields line).set (f.meta.Pos.Column - 1).toNat
          (ToLowerSnake tok))) =
        (Fields line).set (f.meta.Pos.Column - 1).toNat (ToLowerSnake tok)) := by
  obtain ⟨tok, hget, hidx, hlt⟩ := index?_valid (Fields line) _ h1 h2
  refine ⟨tok, hget, ?_, fixedLineOf_set _ _ _ hlt (Fields_ne_space line), fun hn => ?_⟩
  · rw [linesWritten_split, lineOut_one ToLowerSnake m pre.length line f tok hm hidx]
    rfl
  · exact Fields_fixedLineOf _ (set_isToken _ _ _ (Fields_isToken line) hn)

/-- C2, the amended claim on a line indented by a tab, with a run of spaces
and trailing spaces: the tokens stay, the whitespace does not. -/
theorem fix_single_occurrence_keeps_other_tokens_witness :
    trackerAt 2 [identAt "userId" 2 2] ((["message M \x7b"].length : Int) + 1) =
      some [identAt "userId" 2 2] ∧
    (1 : Int) ≤ (identAt "userId" 2 2).meta.Pos.Column ∧
    (identAt "userId" 2 2).meta.Pos.Column ≤
      ((Fields "\tint32   userId = 1;  ").length : Int) ∧
    linesWritten strs.ToLowerSnake (trackerAt 2 [identAt "userId" 2 2])
        (["message M \x7b"] ++ "\tint32   userId = 1;  " :: ["\x7d"]) =
      some ["message M \x7b", "  int32 user_id = 1;", "\x7d"] := by
  obtain ⟨tok, hget, hw, _, _⟩ :=
    fix_single_occurrence_keeps_other_tokens strs.ToLowerSnake
      (trackerAt 2 [identAt "userId" 2 2]) ["message M \x7b"] "\tint32   userId = 1;  "
      ["\x7d"] (identAt "userId" 2 2) (by decide) (by decide) (by decide)
  have ht : tok = "userId" := by
    have hk : (Fields "\tint32   userId = 1;  ")[((identAt "userId" 2 2).meta.Pos.Column
        - 1).toNat]? = some "userId" := by decide
    rw [hk] at hget
    exact (Option.some.inj hget).symm
  subst ht
  exact ⟨by decide, by decide, by decide, hw.trans (by decide)⟩

/-- C2 as stated fails: on a line indented by four spaces, with the occurrence
at token 2, `fix` writes a line indented by two spaces, so the written line is
not the original with only the token `userId` exchanged for `user_id`. -/
theorem fix_rewrites_whitespace_outside_token :
    linesWritten strs.ToLowerSnake (trackerAt 1 [identAt "userId" 1 2])
        ["    int32 userId = 1;"] = some ["  int32 user_id = 1;"] ∧
    ¬ ∃ a b : String, "    int32 userId = 1;" = a ++ "userId" ++ b ∧
        "  int32 user_id = 1;" = a ++ "user_id" ++ b := by
  refine ⟨by decide, ?_⟩
  rintro ⟨a, b, h1, h2⟩
  have e1 := congrArg String.length h1
  have e2 := congrArg String.length h2
  have l1 : "    int32 userId = 1;".length = 21 := by decide
  have l2 : "  int32 user_id = 1;".length = 20 := by decide
  have l3 : "userId".length = 6 := by decide
  have l4 : "user_id".length = 7 := by decide
  rw [String.length_append, String.length_append, l1, l3] at e1
  rw [String.length_append, String.length_append, l2, l4] at e2
  omega

/-- C3, the code at a failing input: the field `int32 userId = 1;` of line 2
starts at character column 3. `fix` takes the column for a token index and
replaces the third token `=`, whatever the converter; the name `userId`
stays. -/
theorem fix_takes_column_for_token_index :
    (∀ ToLowerSnake : String → String,
      linesWritten ToLowerSnake (trackerAt 2 [identAt "userId" 2 3])
        ["message M \x7b", "  int32 userId = 1;", "\x7d"] =
      some ["message M \x7b", fixedLineOf ["int32", "userId", ToLowerSnake "=", "1;"],
        "\x7d"]) ∧
    linesWritten strs.ToLowerSnake (trackerAt 2 [identAt "userId" 2 3])
        ["message M \x7b", "  int32 userId = 1;", "\x7d"] =
      some ["message M \x7b", "  int32 userId _ 1;", "\x7d"] := by
  refine ⟨fun conv => ?_, by decide⟩
  have hF : Fields "  int32 userId = 1;" = ["int32", "userId", "=", "1;"] := by decide
  have hm : trackerAt 2 [identAt "userId" 2 3] (((["message M \x7b"] : List String).length
      : Int) + 1) = some [identAt "userId" 2 3] := by decide
  have hi : index? (Fields "  int32 userId = 1;")
      ((identAt "userId" 2 3).meta.Pos.Column - 1) = some "=" := by decide
  have h0 : linesWrittenFrom conv (trackerAt 2 [identAt "userId" 2 3]) 0
      ["message M \x7b"] = some ["message M \x7b"] := by
    have hn : trackerAt 2 [identAt "userId" 2 3] (((0 : Nat) : Int) + 1) = none := by decide
    rw [linesWrittenFrom_cons, lineOut_untracked conv _ _ _ hn, linesWrittenFrom_nil]
    rfl
  have h2 : linesWrittenFrom conv (trackerAt 2 [identAt "userId" 2 3])
      ((["message M \x7b"] : List String).length + 1) ["\x7d"] = some ["\x7d"] := by
    have hn : trackerAt 2 [identAt "userId" 2 3]
        (((((["message M \x7b"] : List String).length + 1 : Nat)) : Int) + 1) = none := by
      decide
    rw [linesWrittenFrom_cons, lineOut_untracked conv _ _ _ hn, linesWrittenFrom_nil]
    rfl
  have hs := linesWritten_split conv (trackerAt 2 [identAt "userId" 2 3])
    ["message M \x7b"] "  int32 userId = 1;" ["\x7d"]
  rw [lineOut_one conv _ _ _ _ "=" hm hi, h0, h2, hF] at hs
  exact hs

/-- C4, the code at a failing input: line 2 holds two violating fields (`B` at
character column 1, `D` at column 7), line 3 is untracked. `fix` writes two
lines for line 2, so the untracked line `\x7d`, at index 2 of the buffer, is at
index 3 of the lines written. -/
theorem fix_shifts_untracked_line :
    ["message M \x7b", "a B=1;c D = 2 [ deprecated = true ] ;", "\x7d"][2]? = some "\x7d" ∧
    trackerAt 2 [identAt "B" 2 1, identAt "D" 2 7] 3 = none ∧
    (linesWritten strs.ToLowerSnake (trackerAt 2 [identAt "B" 2 1, identAt "D" 2 7])
        ["message M \x7b", "a B=1;c D = 2 [ deprecated = true ] ;", "\x7d"]).bind
      (fun out => out[2]?) = some "  a B=1;c D = 2 [ deprecated = true ] ;" ∧
    (linesWritten strs.ToLowerSnake (trackerAt 2 [identAt "B" 2 1, identAt "D" 2 7])
        ["message M \x7b", "a B=1;c D = 2 [ deprecated = true ] ;", "\x7d"]).bind
      (fun out => out[3]?) = some "\x7d" := by
  decide

/-- C5, the code at a failing input: the two fields `B` and `D` of line 2 are
visited, both are recorded on line 2, and `fix` writes four lines for the
three lines read, line 2 twice. -/
theorem fix_writes_one_line_per_occurrence :
    (visitAll strs.IsLowerSnakeCase noTable
        [.field ⟨"B", ⟨posAt 2 1, posAt 2 6⟩⟩, .field ⟨"D", ⟨posAt 2 7, posAt 2 37⟩⟩]
        (newVisitor true
          ["message M \x7b", "a B=1;c D = 2 [ deprecated = true ] ;", "\x7d"])).fieldIdent 2 =
      some [⟨"B", ⟨posAt 2 1, posAt 2 6⟩⟩, ⟨"D", ⟨posAt 2 7, posAt 2 37⟩⟩] ∧
    linesWritten strs.ToLowerSnake
        (visitAll strs.IsLowerSnakeCase noTable
          [.field ⟨"B", ⟨posAt 2 1, posAt 2 6⟩⟩, .field ⟨"D", ⟨posAt 2 7, posAt 2 37⟩⟩]
          (newVisitor true
            ["message M \x7b", "a B=1;c D = 2 [ deprecated = true ] ;",
              "\x7d"])).fieldIdent
        ["message M \x7b", "a B=1;c D = 2 [ deprecated = true ] ;", "\x7d"] =
      some ["message M \x7b", "  a B=1;c D = 2 [ deprecated = true ] ;",
        "  a B=1;c D = 2 [ deprecated = true ] ;", "\x7d"] := by
  decide

/-- C6. If the tracker is empty, `fix` prints nothing and hands the file writer
exactly the input line buffer, line for line: the lines written equal the
lines read, and `fix` returns what the writer returns. -/
theorem fix_empty_tracker_writes_input (ToLowerSnake : String → String)
    (WriteLines : String → List String → String → Option GoError) (v : Visitor)
    (h : ∀ k, v.fieldIdent k = none) :
    linesWritten ToLowerSnake v.fieldIdent v.protoLines = some v.protoLines ∧
    fix ToLowerSnake WriteLines v =
      .ret [] [⟨v.protoFileName, v.protoLines, v.newline⟩]
        (WriteLines v.protoFileName v.protoLines v.newline) := by
  constructor
  · simp [linesWritten, linesWrittenFrom, fixLoopI_untracked ToLowerSnake _ h]
  · simp [fix, fixLoopI_untracked ToLowerSnake _ h]

/-- C6 at scenario 5: a file whose only field is `user_id`, nothing recorded. -/
theorem fix_empty_tracker_writes_input_witness :
    (∀ k, (newVisitor true ["message M \x7b", "  int32 user_id = 1;", "\x7d"]).fieldIdent k
      = none) ∧
    fix strs.ToLowerSnake writeOk
        (newVisitor true ["message M \x7b", "  int32 user_id = 1;", "\x7d"]) =
      .ret [] [⟨"a.proto", ["message M \x7b", "  int32 user_id = 1;", "\x7d"], "\n"⟩] none :=
  ⟨fun _ => rfl,
    (fix_empty_tracker_writes_input strs.ToLowerSnake writeOk
      (newVisitor true ["message M \x7b", "  int32 user_id = 1;", "\x7d"]) (fun _ => rfl)).2⟩

/-- C7. For a line with two recorded occurrences at distinct columns that both
address existing tokens, `fix` writes (after a line holding the later
occurrence alone) a line built from a token list T in which both addressed
tokens are replaced by their ToLowerSnake forms and every other token is the
original token at the same index; when both new tokens are tokens, splitting
that written line gives T. -/
theorem fix_two_occurrences_both_replaced (ToLowerSnake : String → String)
    (m : Tracker) (pre : List String) (line : String) (post : List String)
    (f1 f2 : fieldIdent)
    (hm : m ((pre.length : Int) + 1) = some [f1, f2])
    (h1 : 1 ≤ f1.meta.Pos.Column ∧ f1.meta.Pos.Column ≤ ((Fields line).length : Int))
    (h2 : 1 ≤ f2.meta.Pos.Column ∧ f2.meta.Pos.Column ≤ ((Fields line).length : Int))
    (hne : f1.meta.Pos.Column ≠ f2.meta.Pos.Column) :
    ∃ t1 t2 T,
      (Fields line)[(f1.meta.Pos.Column - 1).toNat]? = some t1 ∧
      (Fields line)[(f2.meta.Pos.Column - 1).toNat]? = some t2 ∧
      T = ((Fields line).set (f2.meta.Pos.Column - 1).toNat (ToLowerSnake t2)).set
        (f1.meta.Pos.Column - 1).toNat (ToLowerSnake t1) ∧
      T.length = (Fields line).length ∧
      T[(f1.meta.Pos.Column - 1).toNat]? = some (ToLowerSnake t1) ∧
      T[(f2.meta.Pos.Column - 1).toNat]? = some (ToLowerSnake t2) ∧
      (∀ k, k ≠ (f1.meta.Pos.Column - 1).toNat → k ≠ (f2.meta.Pos.Column - 1).toNat →
        T[k]? = (Fields line)[k]?) ∧
      linesWritten ToLowerSnake m (pre ++ line :: post) =
        ((linesWrittenFrom ToLowerSnake m 0 pre).bind fun a =>
          (linesWrittenFrom ToLowerSnake m (pre.length + 1) post).map fun c =>
            a ++ [fixedLineOf ((Fields line).set (f2.meta.Pos.Column - 1).toNat
              (ToLowerSnake t2)), fixedLineOf T] ++ c) ∧
      (isToken (ToLowerSnake t1) = true → isToken (ToLowerSnake t2) = true →
        Fields (fixedLineOf T) = T) := by
  obtain ⟨t1, hget1, hidx1, hlt1⟩ := index?_valid (Fields line) _ h1.1 h1.2
  obtain ⟨t2, hget2, hidx2, hlt2⟩ := index?_valid (Fields line) _ h2.1 h2.2
  have hj : (f2.meta.Pos.Column - 1).toNat ≠ (f1.meta.Pos.Column - 1).toNat := by omega
  have hidx1s : index? ((Fields line).set (f2.meta.Pos.Column - 1).toNat (ToLowerSnake t2))
      (f1.meta.Pos.Column - 1) = some t1 := by
    simp only [index?] at hidx1 ⊢
    rw [if_pos (by omega)] at hidx1 ⊢
    rw [List.getElem?_set_ne hj]
    exact hidx1
  refine ⟨t1, t2, ((Fields line).set (f2.meta.Pos.Column - 1).toNat (ToLowerSnake t2)).set
    (f1.meta.Pos.Column - 1).toNat (ToLowerSnake t1), hget1, hget2, rfl, by simp, ?_, ?_, ?_,
    ?_, ?_⟩
  · exact List.getElem?_set_self (by rw [List.length_set]; exact hlt1)
  · rw [List.getElem?_set_ne (Ne.symm hj)]
    exact List.getElem?_set_self hlt2
  · intro k hk1 hk2
    rw [List.getElem?_set_ne (Ne.symm hk1), List.getElem?_set_ne (Ne.symm hk2)]
  · rw [linesWritten_split,
      lineOut_two ToLowerSnake m pre.length line f1 f2 t1 t2 hm hidx2 hidx1s]
    rfl
  · intro hn1 hn2
    exact Fields_fixedLineOf _
      (set_isToken _ _ _ (set_isToken _ _ _ (Fields_isToken line) hn2) hn1)

/-- C7 at scenario 4: a line with the two violating names `userId` (token 2)
and `userName` (token 6); the last line written for it has both fixed. -/
theorem fix_two_occurrences_both_replaced_witness :
    trackerAt 1 [identAt "userId" 1 2, identAt "userName" 1 6]
        ((([] : List String).length : Int) + 1) =
      some [identAt "userId" 1 2, identAt "userName" 1 6] ∧
    ((1 : Int) ≤ (identAt "userId" 1 2).meta.Pos.Column ∧
      (identAt "userId" 1 2).meta.Pos.Column ≤
        ((Fields "int32 userId = 1; string userName = 2;").length : Int)) ∧
    ((1 : Int) ≤ (identAt "userName" 1 6).meta.Pos.Column ∧
      (identAt "userName" 1 6).meta.Pos.Column ≤
        ((Fields "int32 userId = 1; string userName = 2;").length : Int)) ∧
    (identAt "userId" 1 2).meta.Pos.Column ≠ (identAt "userName" 1 6).meta.Pos.Column ∧
    linesWritten strs.ToLowerSnake
        (trackerAt 1 [identAt "userId" 1 2, identAt "userName" 1 6])
        ([] ++ "int32 userId = 1; string userName = 2;" :: []) =
      some ["  int32 userId = 1; string user_name = 2;",
        "  int32 user_id = 1; string user_name = 2;"] := by
  obtain ⟨t1, t2, T, hg1, hg2, hT, _, _, _, _, hw, _⟩ :=
    fix_two_occurrences_both_replaced strs.ToLowerSnake
      (trackerAt 1 [identAt "userId" 1 2, identAt "userName" 1 6]) []
      "int32 userId = 1; string userName = 2;" []
      (identAt "userId" 1 2) (identAt "userName" 1 6)
      (by decide) (by decide) (by decide) (by decide)
  have ht1 : t1 = "userId" := by
    have hk : (Fields "int32 userId = 1; string userName = 2;")[((identAt "userId" 1
        2).meta.Pos.Column - 1).toNat]? = some "userId" := by decide
    rw [hk] at hg1
    exact (Option.some.inj hg1).symm
  have ht2 : t2 = "userName" := by
    have hk : (Fields "int32 userId = 1; string userName = 2;")[((identAt "userName" 1
        6).meta.Pos.Column - 1).toNat]? = some "userName" := by decide
    rw [hk] at hg2
    exact (Option.some.inj hg2).symm
  subst ht1 ht2 hT
  exact ⟨by decide, by decide, by decide, by decide, hw.trans (by decide)⟩

/-- C8. Starting from an empty tracker, after visiting any sequence of
declarations, a line number L is a key of the tracker iff some visited
declaration positioned on line L has a name that is not lower-snake-case, and
the list stored at L is exactly the occurrences of those declarations in visit
order, repetitions kept; `Record(line, x)` appends x at the end of the list at
`line` and leaves every other key as it was. -/
theorem tracker_holds_violations_in_visit_order (IsLowerSnakeCase : String → Bool)
    (tbl : Char → Bool) (decls : List Decl) (v : Visitor) (L line : Int) (x : fieldIdent) :
    (((visitAll IsLowerSnakeCase tbl decls { v with fieldIdent := emptyTracker }).fieldIdent
        L).isSome = true ↔
      ∃ d ∈ decls, d.meta.Pos.Line = L ∧ IsLowerSnakeCase d.name = false) ∧
    ((visitAll IsLowerSnakeCase tbl decls { v with fieldIdent := emptyTracker }).fieldIdent L
      = if violationsAt IsLowerSnakeCase L decls = [] then none
        else some (violationsAt IsLowerSnakeCase L decls)) ∧
    (∀ k, (Record v line x).fieldIdent k =
      if k = line then some ((v.fieldIdent line).getD [] ++ [x]) else v.fieldIdent k) := by
  have hv := visitAll_tracker IsLowerSnakeCase tbl L decls
    { v with fieldIdent := emptyTracker }
  simp only [emptyTracker, Option.getD_none, List.nil_append] at hv
  refine ⟨?_, by simpa [emptyTracker] using hv, fun k => rfl⟩
  rw [hv]
  by_cases he : violationsAt IsLowerSnakeCase L decls = []
  · have := (violationsAt_eq_nil_iff IsLowerSnakeCase L decls).mp he
    simp only [he, if_true, Option.isSome_none]
    constructor
    · intro h; cases h
    · intro h; exact absurd h this
  · have hex : ∃ d ∈ decls, d.meta.Pos.Line = L ∧ IsLowerSnakeCase d.name = false := by
      by_contra hc
      exact he ((violationsAt_eq_nil_iff IsLowerSnakeCase L decls).mpr hc)
    simp [he, hex]

/-- C9. The Failure list does not depend on fix mode: for every sequence of
visited declarations, the visits with fixMode = true leave the same Failures
(positions, messages, order) as the visits with fixMode = false. -/
theorem failures_independent_of_fixMode (IsLowerSnakeCase : String → Bool)
    (tbl : Char → Bool) (decls : List Decl) (v : Visitor) :
    (visitAll IsLowerSnakeCase tbl decls { v with fixMode := true }).failures =
      (visitAll IsLowerSnakeCase tbl decls { v with fixMode := false }).failures :=
  visitAll_failures_congr IsLowerSnakeCase tbl decls _ _ rfl

/-- C10. When fixMode is false, `Finally` returns nil, prints nothing and
issues no file write, whatever the tracker holds; when fixMode is true,
`Finally` is exactly `fix`. -/
theorem Finally_runs_fix_only_in_fixMode (ToLowerSnake : String → String)
    (WriteLines : String → List String → String → Option GoError) (v : Visitor) :
    (v.fixMode = false → Finally ToLowerSnake WriteLines v = .ret [] [] none) ∧
    (v.fixMode = true →
      Finally ToLowerSnake WriteLines v = fix ToLowerSnake WriteLines v) := by
  constructor <;> intro h <;> simp [Finally, h]

/-- C10 on a visitor with one recorded violation: no write in check mode, the
rewritten lines in fix mode. -/
theorem Finally_runs_fix_only_in_fixMode_witness :
    Finally strs.ToLowerSnake writeOk
        { newVisitor false ["int32 userId = 1;"] with
          fieldIdent := trackerAt 1 [identAt "userId" 1 2] } = .ret [] [] none ∧
    Finally strs.ToLowerSnake writeOk
        { newVisitor true ["int32 userId = 1;"] with
          fieldIdent := trackerAt 1 [identAt "userId" 1 2] } =
      .ret ["fix : replace  userId  with  user_id\n"]
        [⟨"a.proto", ["  int32 user_id = 1;"], "\n"⟩] none := by
  refine ⟨(Finally_runs_fix_only_in_fixMode strs.ToLowerSnake writeOk _).1 rfl, ?_⟩
  rw [(Finally_runs_fix_only_in_fixMode strs.ToLowerSnake writeOk _).2 rfl]
  decide

/-- C11. If reading the file's lines fails, `Apply` returns that read error
with no Failure (a nil list); no visit callback is called, nothing is printed
and no file write is issued. -/
theorem Apply_returns_read_error (ReadAllLines : String → String → Except GoError (List String))
    (IsLowerSnakeCase : String → Bool) (tbl : Char → Bool)
    (ToLowerSnake : String → String)
    (WriteLines : String → List String → String → Option GoError)
    (r : FieldNamesLowerSnakeCaseRule) (proto : Proto) (err : GoError)
    (h : ReadAllLines proto.Filename "\n" = .error err) :
    Apply ReadAllLines IsLowerSnakeCase tbl ToLowerSnake WriteLines r proto =
      .ret [] (some err) 0 [] [] := by
  simp only [Apply, h]

/-- C11 on a file that cannot be opened, in fix mode, with a violating
field. -/
theorem Apply_returns_read_error_witness :
    readFails "a.proto" "\n" = .error "open a.proto: no such file or directory" ∧
    Apply readFails strs.IsLowerSnakeCase noTable strs.ToLowerSnake writeOk
        (NewFieldNamesLowerSnakeCaseRule true)
        ⟨"a.proto", [.field ⟨"userId", ⟨posAt 2 3, posAt 2 20⟩⟩]⟩ =
      .ret [] (some "open a.proto: no such file or directory") 0 [] [] :=
  ⟨rfl, Apply_returns_read_error readFails strs.IsLowerSnakeCase noTable
    strs.ToLowerSnake writeOk (NewFieldNamesLowerSnakeCaseRule true)
    ⟨"a.proto", [.field ⟨"userId", ⟨posAt 2 3, posAt 2 20⟩⟩]⟩ _ rfl⟩

/-- C12 (amended). `Apply` reads the file first, before the traversal and
whatever fixMode is. When fixMode is false and the read succeeds, `Apply`
returns the full Failure list of the traversal with no error, prints nothing
and writes nothing, and the result does not depend on the lines read; when the
read fails it returns the read error and no Failure, fixMode false included. -/
theorem Apply_check_mode_reads_first
    (ReadAllLines : String → String → Except GoError (List String))
    (IsLowerSnakeCase : String → Bool) (tbl : Char → Bool)
    (ToLowerSnake : String → String)
    (WriteLines : String → List String → String → Option GoError) (proto : Proto) :
    (∀ lines, ReadAllLines proto.Filename "\n" = .ok lines →
      Apply ReadAllLines IsLowerSnakeCase tbl ToLowerSnake WriteLines
          (NewFieldNamesLowerSnakeCaseRule false) proto =
        .ret (visitAll IsLowerSnakeCase tbl proto.decls (newVisitor false [])).failures
          none proto.decls.length [] []) ∧
    (∀ err, ReadAllLines proto.Filename "\n" = .error err →
      Apply ReadAllLines IsLowerSnakeCase tbl ToLowerSnake WriteLines
          (NewFieldNamesLowerSnakeCaseRule false) proto =
        .ret [] (some err) 0 [] []) := by
  constructor
  · intro lines h
    simp only [Apply, h, RunVisitor, Finally, visitAll_fixMode,
      NewFieldNamesLowerSnakeCaseRule, Bool.false_eq_true, if_false]
    exact congrArg (fun fs => ApplyOutcome.ret fs none proto.decls.length [] [])
      (visitAll_failures_congr IsLowerSnakeCase tbl proto.decls _ _ rfl)
  · intro err h
    simp only [Apply, h]

/-- C12, the amended claim on a readable file with one violating field and on
a file that cannot be opened. -/
theorem Apply_check_mode_reads_first_witness :
    readOk ["message M \x7b", "  int32 userId = 1;", "\x7d"] "a.proto" "\n" =
      .ok ["message M \x7b", "  int32 userId = 1;", "\x7d"] ∧
    Apply (readOk ["message M \x7b", "  int32 userId = 1;", "\x7d"]) strs.IsLowerSnakeCase
        noTable strs.ToLowerSnake writeOk (NewFieldNamesLowerSnakeCaseRule false)
        ⟨"a.proto", [.field ⟨"userId", ⟨posAt 2 3, posAt 2 20⟩⟩]⟩ =
      .ret [⟨posAt 2 3, "Field name \"userId\" must be underscore_separated_names"⟩]
        none 1 [] [] ∧
    readFails "a.proto" "\n" = .error "open a.proto: no such file or directory" ∧
    Apply readFails strs.IsLowerSnakeCase noTable strs.ToLowerSnake writeOk
        (NewFieldNamesLowerSnakeCaseRule false)
        ⟨"a.proto", [.field ⟨"userId", ⟨posAt 2 3, posAt 2 20⟩⟩]⟩ =
      .ret [] (some "open a.proto: no such file or directory") 0 [] [] := by
  refine ⟨rfl, ?_, rfl, ?_⟩
  · rw [(Apply_check_mode_reads_first
      (readOk ["message M \x7b", "  int32 userId = 1;", "\x7d"]) strs.IsLowerSnakeCase
      noTable strs.ToLowerSnake writeOk
      ⟨"a.proto", [.field ⟨"userId", ⟨posAt 2 3, posAt 2 20⟩⟩]⟩).1 _ rfl]
    decide
  · exact (Apply_check_mode_reads_first readFails strs.IsLowerSnakeCase noTable
      strs.ToLowerSnake writeOk
      ⟨"a.proto", [.field ⟨"userId", ⟨posAt 2 3, posAt 2 20⟩⟩]⟩).2 _ rfl

/-- C12 as stated fails: with fixMode false, the same tree gives the Failure
of the field `userId` when the file can be read, and the read error with no
Failure and no visit when it cannot. -/
theorem Apply_check_mode_depends_on_read :
    Apply (readOk ["message M \x7b", "  int32 userId = 1;", "\x7d"]) strs.IsLowerSnakeCase
        noTable strs.ToLowerSnake writeOk (NewFieldNamesLowerSnakeCaseRule false)
        ⟨"a.proto", [.field ⟨"userId", ⟨posAt 2 3, posAt 2 20⟩⟩]⟩ =
      .ret [⟨posAt 2 3, "Field name \"userId\" must be underscore_separated_names"⟩]
        none 1 [] [] ∧
    Apply readFails strs.IsLowerSnakeCase noTable strs.ToLowerSnake writeOk
        (NewFieldNamesLowerSnakeCaseRule false)
        ⟨"a.proto", [.field ⟨"userId", ⟨posAt 2 3, posAt 2 20⟩⟩]⟩ =
      .ret [] (some "open a.proto: no such file or directory") 0 [] [] := by
  decide

/-- C13 (amended). For a line with recorded occurrences at valid columns,
`fix` applies the occurrences in reverse recording order, last recorded
first: the lines it writes for that line are those built after each
occurrence of the reversed list, the k-th holding the first k of them
applied. That order is descending in column when the occurrences were
recorded in ascending column order. -/
theorem fix_applies_in_reverse_recording_order (ToLowerSnake : String → String)
    (m : Tracker) (pre : List String) (line : String) (post : List String)
    (fixes : List fieldIdent)
    (hm : m ((pre.length : Int) + 1) = some fixes)
    (hv : ∀ f ∈ fixes, validColumn (Fields line) f) :
    linesWritten ToLowerSnake m (pre ++ line :: post) =
      ((linesWrittenFrom ToLowerSnake m 0 pre).bind fun a =>
        (linesWrittenFrom ToLowerSnake m (pre.length + 1) post).map fun c =>
          a ++ emitted ToLowerSnake fixes.reverse (Fields line) ++ c) ∧
    (∀ k, k < fixes.length →
      (emitted ToLowerSnake fixes.reverse (Fields line))[k]? =
        some (fixedLineOf (substAll ToLowerSnake (fixes.reverse.take (k + 1))
          (Fields line)))) ∧
    (fixes.Pairwise (fun a b => a.meta.Pos.Column < b.meta.Pos.Column) →
      fixes.reverse.Pairwise (fun a b => b.meta.Pos.Column < a.meta.Pos.Column)) := by
  refine ⟨?_, fun k hk => ?_, fun hp => List.pairwise_reverse.mpr hp⟩
  · rw [linesWritten_split, lineOut_valid ToLowerSnake m pre.length line fixes hm hv]
    rfl
  · exact emitted_getElem? ToLowerSnake fixes.reverse (Fields line) k (by simpa using hk)

/-- C13, the amended claim on a line whose two occurrences were recorded left
to right: the one at column 6 is applied first. -/
theorem fix_applies_in_reverse_recording_order_witness :
    trackerAt 1 [identAt "userId" 1 2, identAt "userName" 1 6]
        ((([] : List String).length : Int) + 1) =
      some [identAt "userId" 1 2, identAt "userName" 1 6] ∧
    (∀ f ∈ [identAt "userId" 1 2, identAt "userName" 1 6],
      validColumn (Fields "int32 userId = 1; string userName = 2;") f) ∧
    [identAt "userId" 1 2, identAt "userName" 1 6].Pairwise
      (fun a b => a.meta.Pos.Column < b.meta.Pos.Column) ∧
    linesWritten strs.ToLowerSnake
        (trackerAt 1 [identAt "userId" 1 2, identAt "userName" 1 6])
        ([] ++ "int32 userId = 1; string userName = 2;" :: []) =
      some ["  int32 userId = 1; string user_name = 2;",
        "  int32 user_id = 1; string user_name = 2;"] ∧
    [identAt "userId" 1 2, identAt "userName" 1 6].reverse.Pairwise
      (fun a b => b.meta.Pos.Column < a.meta.Pos.Column) := by
  have h := fix_applies_in_reverse_recording_order strs.ToLowerSnake
    (trackerAt 1 [identAt "userId" 1 2, identAt "userName" 1 6]) []
    "int32 userId = 1; string userName = 2;" []
    [identAt "userId" 1 2, identAt "userName" 1 6] (by decide) (by decide)
  exact ⟨by decide, by decide, by decide, h.1.trans (by decide), h.2.2 (by decide)⟩

/-- C13 as stated fails: with the occurrence of column 2 recorded before the
one of column 1, `fix` replaces the token of column 1 first (its first line
and its first message show it), whereas descending column order would replace
the token of column 2 first. -/
theorem fix_order_follows_recording_not_columns :
    fix strs.ToLowerSnake writeOk
        { newVisitor true ["A B"] with
          fieldIdent := trackerAt 1 [identAt "B" 1 2, identAt "A" 1 1] } =
      .ret ["fix : replace  A  with  a\n", "fix : replace  B  with  b\n"]
        [⟨"a.proto", ["  a B", "  a b"], "\n"⟩] none ∧
    emitted strs.ToLowerSnake [identAt "B" 1 2, identAt "A" 1 1] (Fields "A B") =
      ["  A b", "  a b"] ∧
    ["  a B", "  a b"] ≠ ["  A b", "  a b"] := by
  decide

/-- C14. Each of the three visit callbacks returns false, the do-not-descend
signal, for every declaration, whether or not its name violates the
convention. -/
theorem visit_callbacks_return_false (IsLowerSnakeCase : String → Bool)
    (tbl : Char → Bool) (v : Visitor) (field : Field) (mapField : MapField)
    (oneofField : OneofField) :
    (VisitField IsLowerSnakeCase tbl v field).2 = false ∧
    (VisitMapField IsLowerSnakeCase tbl v mapField).2 = false ∧
    (VisitOneofField IsLowerSnakeCase tbl v oneofField).2 = false := by
  simp only [VisitField, VisitMapField, VisitOneofField]
  refine ⟨?_, ?_, ?_⟩ <;> split <;> rfl

/-- C15. `fix` completes without an out-of-range token access iff every
occurrence recorded on a line present in the buffer has
1 <= column <= number of tokens of that line. In particular an occurrence
recorded on a blank line, or with a column greater than the line's token
count, makes `fix` panic, and tracker entries for line numbers beyond the end
of the buffer are ignored. -/
theorem fix_completes_iff_columns_address_tokens (ToLowerSnake : String → String)
    (WriteLines : String → List String → String → Option GoError) (v : Visitor) :
    (fix ToLowerSnake WriteLines v ≠ .panic ↔
      ∀ (i : Nat) (line : String), v.protoLines[i]? = some line →
        ∀ fixes, v.fieldIdent ((i : Int) + 1) = some fixes →
          ∀ f ∈ fixes, 1 ≤ f.meta.Pos.Column ∧
            f.meta.Pos.Column ≤ ((Fields line).length : Int)) ∧
    (∀ (i : Nat) (line : String) (fixes : List fieldIdent) (f : fieldIdent),
      v.protoLines[i]? = some line → v.fieldIdent ((i : Int) + 1) = some fixes →
      f ∈ fixes →
      (Fields line = [] ∨ ((Fields line).length : Int) < f.meta.Pos.Column) →
      fix ToLowerSnake WriteLines v = .panic) ∧
    (∀ m : Tracker,
      (∀ i : Nat, i < v.protoLines.length →
        m ((i : Int) + 1) = v.fieldIdent ((i : Int) + 1)) →
      fix ToLowerSnake WriteLines { v with fieldIdent := m } =
        fix ToLowerSnake WriteLines v) := by
  have hiff : fix ToLowerSnake WriteLines v ≠ .panic ↔
      ∀ (i : Nat) (line : String), v.protoLines[i]? = some line →
        ∀ fixes, v.fieldIdent ((i : Int) + 1) = some fixes →
          ∀ f ∈ fixes, 1 ≤ f.meta.Pos.Column ∧
            f.meta.Pos.Column ≤ ((Fields line).length : Int) := by
    rw [fix_ne_panic_iff, linesWritten, linesWrittenFrom_isSome_iff]
    simp only [Nat.zero_add, validColumn]
  refine ⟨hiff, ?_, ?_⟩
  · intro i line fixes f hl hm hf hbad
    by_contra hp
    have hv := hiff.mp hp i line hl fixes hm f hf
    rcases hbad with h0 | h0
    · rw [h0] at hv
      simp only [List.length_nil, Nat.cast_zero] at hv
      omega
    · omega
  · intro m hm
    simp only [fix]
    rw [fixLoopI_congr ToLowerSnake m v.fieldIdent 0 v.protoLines ⟨[], []⟩
      (fun k hk => by simpa using hm k hk)]

/-- C15 on three buffers: a blank line with a recorded occurrence and a column
beyond the four tokens of the line make `fix` panic; a tracker entry for line
7 of a one-line buffer changes nothing. -/
theorem fix_completes_iff_columns_address_tokens_witness :
    Fields "" = [] ∧
    fix strs.ToLowerSnake writeOk
        { newVisitor true ["", "x"] with fieldIdent := trackerAt 1 [identAt "B" 1 1] } =
      .panic ∧
    ((Fields "int32 userId = 1;").length : Int) < (identAt "B" 1 5).meta.Pos.Column ∧
    fix strs.ToLowerSnake writeOk
        { newVisitor true ["int32 userId = 1;"] with
          fieldIdent := trackerAt 1 [identAt "B" 1 5] } = .panic ∧
    fix strs.ToLowerSnake writeOk
        { newVisitor true ["int32 userId = 1;"] with
          fieldIdent := trackerAt 7 [identAt "B" 7 5] } =
      fix strs.ToLowerSnake writeOk (newVisitor true ["int32 userId = 1;"]) := by
  refine ⟨by decide, ?_, by decide, ?_, ?_⟩
  · exact (fix_completes_iff_columns_address_tokens strs.ToLowerSnake writeOk
      { newVisitor true ["", "x"] with fieldIdent := trackerAt 1 [identAt "B" 1 1] }).2.1
      0 "" [identAt "B" 1 1] (identAt "B" 1 1) (by decide) (by decide) (by decide)
      (Or.inl (by decide))
  · exact (fix_completes_iff_columns_address_tokens strs.ToLowerSnake writeOk
      { newVisitor true ["int32 userId = 1;"] with
        fieldIdent := trackerAt 1 [identAt "B" 1 5] }).2.1
      0 "int32 userId = 1;" [identAt "B" 1 5] (identAt "B" 1 5) (by decide) (by decide)
      (by decide) (Or.inr (by decide))
  · exact (fix_completes_iff_columns_address_tokens strs.ToLowerSnake writeOk
      (newVisitor true ["int32 userId = 1;"])).2.2 (trackerAt 7 [identAt "B" 7 5])
      (fun i hi => by
        have h0 : i = 0 := by simpa [newVisitor] using hi
        subst h0
        decide)

/-- C16. For an input line with k recorded occurrences at valid columns, `fix`
emits k consecutive output lines, one per occurrence, the m-th of which is
built from the token list with the last m recorded occurrences applied (last
recorded first); and whenever `fix` gets to write, the number of lines written
is the sum over the input lines of k for a line tracked with k occurrences and
of 1 for an untracked line. -/
theorem fix_emits_one_line_per_occurrence (ToLowerSnake : String → String)
    (m : Tracker) (pre : List String) (line : String) (post : List String)
    (fixes : List fieldIdent)
    (hm : m ((pre.length : Int) + 1) = some fixes)
    (hv : ∀ f ∈ fixes, validColumn (Fields line) f) :
    ∃ out : List String,
      out.length = fixes.length ∧
      (∀ k, k < fixes.length →
        out[k]? = some (fixedLineOf (substAll ToLowerSnake
          (fixes.drop (fixes.length - (k + 1))).reverse (Fields line)))) ∧
      linesWritten ToLowerSnake m (pre ++ line :: post) =
        ((linesWrittenFrom ToLowerSnake m 0 pre).bind fun a =>
          (linesWrittenFrom ToLowerSnake m (pre.length + 1) post).map fun c =>
            a ++ out ++ c) ∧
      ∀ (lines written : List String), linesWritten ToLowerSnake m lines = some written →
        written.length = expectedLineCount m 0 lines := by
  refine ⟨emitted ToLowerSnake fixes.reverse (Fields line), ?_, fun k hk => ?_, ?_,
    fun lines written hw => linesWrittenFrom_length ToLowerSnake m 0 lines written hw⟩
  · rw [emitted_length, List.length_reverse]
  · rw [emitted_getElem? ToLowerSnake fixes.reverse (Fields line) k (by simpa using hk),
      List.take_reverse]
  · rw [linesWritten_split, lineOut_valid ToLowerSnake m pre.length line fixes hm hv]
    rfl

/-- C16 on a buffer of three lines whose second line has two recorded
occurrences: two lines are written for it, four in all. -/
theorem fix_emits_one_line_per_occurrence_witness :
    trackerAt 2 [identAt "userId" 2 2, identAt "userName" 2 6]
        ((["message M \x7b"].length : Int) + 1) =
      some [identAt "userId" 2 2, identAt "userName" 2 6] ∧
    (∀ f ∈ [identAt "userId" 2 2, identAt "userName" 2 6],
      validColumn (Fields "int32 userId = 1; string userName = 2;") f) ∧
    linesWritten strs.ToLowerSnake
        (trackerAt 2 [identAt "userId" 2 2, identAt "userName" 2 6])
        (["message M \x7b"] ++ "int32 userId = 1; string userName = 2;" :: ["\x7d"]) =
      some ["message M \x7b", "  int32 userId = 1; string user_name = 2;",
        "  int32 user_id = 1; string user_name = 2;", "\x7d"] ∧
    ["message M \x7b", "  int32 userId = 1; string user_name = 2;",
        "  int32 user_id = 1; string user_name = 2;", "\x7d"].length =
      expectedLineCount (trackerAt 2 [identAt "userId" 2 2, identAt "userName" 2 6]) 0
        (["message M \x7b"] ++ "int32 userId = 1; string userName = 2;" :: ["\x7d"]) := by
  obtain ⟨out, _, _, _, hcount⟩ := fix_emits_one_line_per_occurrence strs.ToLowerSnake
    (trackerAt 2 [identAt "userId" 2 2, identAt "userName" 2 6]) ["message M \x7b"]
    "int32 userId = 1; string userName = 2;" ["\x7d"]
    [identAt "userId" 2 2, identAt "userName" 2 6] (by decide) (by decide)
  have hw : linesWritten strs.ToLowerSnake
      (trackerAt 2 [identAt "userId" 2 2, identAt "userName" 2 6])
      (["message M \x7b"] ++ "int32 userId = 1; string userName = 2;" :: ["\x7d"]) =
    some ["message M \x7b", "  int32 userId = 1; string user_name = 2;",
      "  int32 user_id = 1; string user_name = 2;", "\x7d"] := by decide
  exact ⟨by decide, by decide, hw, hcount _ _ hw⟩

/-- C17. Token substitution is order-independent: applying a permutation of
the occurrences gives the same final token list, reversed order included, and
the number of tokens never changes; so for a line whose recorded occurrences
all address existing tokens, the last line `fix` emits is the same for every
permutation of the recorded occurrences, namely the line built from that
final token list. -/
theorem substitution_order_independent (ToLowerSnake : String → String)
    (fs gs : List fieldIdent) (p : fs.Perm gs) (m n : Tracker) (i : Nat)
    (line : String)
    (hm : m ((i : Int) + 1) = some fs) (hn : n ((i : Int) + 1) = some gs)
    (hv : ∀ f ∈ fs, validColumn (Fields line) f) :
    substAll ToLowerSnake fs (Fields line) = substAll ToLowerSnake gs (Fields line) ∧
    substAll ToLowerSnake fs.reverse (Fields line) =
      substAll ToLowerSnake fs (Fields line) ∧
    (substAll ToLowerSnake fs (Fields line)).length = (Fields line).length ∧
    (lineOut ToLowerSnake m i line).bind List.getLast? =
      (lineOut ToLowerSnake n i line).bind List.getLast? ∧
    (fs ≠ [] → (lineOut ToLowerSnake m i line).bind List.getLast? =
      some (fixedLineOf (substAll ToLowerSnake fs (Fields line)))) := by
  have hvg : ∀ f ∈ gs, validColumn (Fields line) f := fun f hf => hv f (p.mem_iff.mpr hf)
  have hrev : ∀ l : List fieldIdent, substAll ToLowerSnake l.reverse (Fields line) =
      substAll ToLowerSnake l (Fields line) := fun l =>
    substAll_perm ToLowerSnake _ _ _ (List.reverse_perm l)
  have hlast : ∀ (t : Tracker) (l : List fieldIdent), t ((i : Int) + 1) = some l →
      (∀ f ∈ l, validColumn (Fields line) f) → l ≠ [] →
      (lineOut ToLowerSnake t i line).bind List.getLast? =
        some (fixedLineOf (substAll ToLowerSnake l (Fields line))) := by
    intro t l ht hl hne
    rw [lineOut_valid ToLowerSnake t i line l ht hl, Option.some_bind,
      emitted_getLast? ToLowerSnake l.reverse (Fields line) (by simpa using hne), hrev]
  refine ⟨substAll_perm ToLowerSnake fs gs _ p, hrev fs, substAll_length _ _ _, ?_,
    fun hne => hlast m fs hm hv hne⟩
  by_cases hne : fs = []
  · have hg : gs = [] := by
      subst hne
      exact List.Perm.eq_nil (List.Perm.symm p)
    rw [lineOut_valid ToLowerSnake m i line fs hm hv,
      lineOut_valid ToLowerSnake n i line gs hn hvg, hne, hg]
  · have hgne : gs ≠ [] := by
      intro hg
      subst hg
      exact hne (List.Perm.eq_nil p)
    rw [hlast m fs hm hv hne, hlast n gs hn hvg hgne, substAll_perm ToLowerSnake fs gs _ p]

/-- C17 on a line with two occurrences recorded in either order: the last
line written is the same. -/
theorem substitution_order_independent_witness :
    [identAt "userId" 1 2, identAt "userName" 1 6].Perm
      [identAt "userName" 1 6, identAt "userId" 1 2] ∧
    trackerAt 1 [identAt "userId" 1 2, identAt "userName" 1 6] (((0 : Nat) : Int) + 1) =
      some [identAt "userId" 1 2, identAt "userName" 1 6] ∧
    trackerAt 1 [identAt "userName" 1 6, identAt "userId" 1 2] (((0 : Nat) : Int) + 1) =
      some [identAt "userName" 1 6, identAt "userId" 1 2] ∧
    (∀ f ∈ [identAt "userId" 1 2, identAt "userName" 1 6],
      validColumn (Fields "int32 userId = 1; string userName = 2;") f) ∧
    (lineOut strs.ToLowerSnake (trackerAt 1 [identAt "userId" 1 2, identAt "userName" 1 6])
        0 "int32 userId = 1; string userName = 2;").bind List.getLast? =
      (lineOut strs.ToLowerSnake
        (trackerAt 1 [identAt "userName" 1 6, identAt "userId" 1 2])
        0 "int32 userId = 1; string userName = 2;").bind List.getLast? ∧
    (lineOut strs.ToLowerSnake (trackerAt 1 [identAt "userId" 1 2, identAt "userName" 1 6])
        0 "int32 userId = 1; string userName = 2;").bind List.getLast? =
      some "  int32 user_id = 1; string user_name = 2;" := by
  have h := substitution_order_independent strs.ToLowerSnake
    [identAt "userId" 1 2, identAt "userName" 1 6]
    [identAt "userName" 1 6, identAt "userId" 1 2] (List.Perm.swap _ _ [])
    (trackerAt 1 [identAt "userId" 1 2, identAt "userName" 1 6])
    (trackerAt 1 [identAt "userName" 1 6, identAt "userId" 1 2]) 0
    "int32 userId = 1; string userName = 2;" (by decide) (by decide) (by decide)
  exact ⟨List.Perm.swap _ _ [], by decide, by decide, by decide, h.2.2.2.1,
    (h.2.2.2.2 (by decide)).trans (by decide)⟩

/-- C18. For a converter that never returns the one-space string (as its
contract demands), every line `fix` writes for a tracked line with valid
columns is exactly two spaces followed by the line's tokens, after the
substitutions made so far, joined by single spaces; and no token of the
whitespace split is the one-space string that the guard leaves out. -/
theorem fix_rewritten_line_is_joined_tokens (ToLowerSnake : String → String)
    (m : Tracker) (pre : List String) (line : String) (post : List String)
    (fixes : List fieldIdent)
    (hc : ∀ s, ToLowerSnake s ≠ " ")
    (hm : m ((pre.length : Int) + 1) = some fixes)
    (hv : ∀ f ∈ fixes, validColumn (Fields line) f) :
    ∃ out : List String,
      out.length = fixes.length ∧
      (∀ k, k < fixes.length →
        out[k]? = some ("  " ++ " ".intercalate
          (substAll ToLowerSnake (fixes.reverse.take (k + 1)) (Fields line)))) ∧
      linesWritten ToLowerSnake m (pre ++ line :: post) =
        ((linesWrittenFrom ToLowerSnake m 0 pre).bind fun a =>
          (linesWrittenFrom ToLowerSnake m (pre.length + 1) post).map fun c =>
            a ++ out ++ c) ∧
      ∀ t ∈ Fields line, t ≠ " " := by
  refine ⟨emitted ToLowerSnake fixes.reverse (Fields line), ?_, fun k hk => ?_, ?_,
    Fields_ne_space line⟩
  · rw [emitted_length, List.length_reverse]
  · rw [emitted_getElem? ToLowerSnake fixes.reverse (Fields line) k (by simpa using hk)]
    have hpos : 0 < (Fields line).length := by
      obtain ⟨f, hf⟩ := List.exists_mem_of_length_pos (Nat.lt_of_le_of_lt (Nat.zero_le k) hk)
      have := hv f hf
      simp only [validColumn] at this
      omega
    have hne : substAll ToLowerSnake (fixes.reverse.take (k + 1)) (Fields line) ≠ [] := by
      intro h0
      have hl := substAll_length ToLowerSnake (fixes.reverse.take (k + 1)) (Fields line)
      rw [h0] at hl
      simp only [List.length_nil] at hl
      omega
    rw [fixedLineOf_intercalate _ hne
      (substAll_ne_space ToLowerSnake _ _ hc (Fields_ne_space line))]
  · rw [linesWritten_split, lineOut_valid ToLowerSnake m pre.length line fixes hm hv]
    rfl

/-- C18 on a line indented by a tab, with a run of spaces and trailing
spaces. -/
theorem fix_rewritten_line_is_joined_tokens_witness :
    (∀ s, strs.ToLowerSnake s ≠ " ") ∧
    trackerAt 2 [identAt "userId" 2 2] ((["message M \x7b"].length : Int) + 1) =
      some [identAt "userId" 2 2] ∧
    (∀ f ∈ [identAt "userId" 2 2], validColumn (Fields "\tint32   userId = 1;  ") f) ∧
    linesWritten strs.ToLowerSnake (trackerAt 2 [identAt "userId" 2 2])
        (["message M \x7b"] ++ "\tint32   userId = 1;  " :: ["\x7d"]) =
      some ["message M \x7b",
        "  " ++ " ".intercalate ["int32", "user_id", "=", "1;"], "\x7d"] := by
  obtain ⟨out, hlen, hk, hw, _⟩ := fix_rewritten_line_is_joined_tokens strs.ToLowerSnake
    (trackerAt 2 [identAt "userId" 2 2]) ["message M \x7b"] "\tint32   userId = 1;  "
    ["\x7d"] [identAt "userId" 2 2] ToLowerSnake_ne_space (by decide) (by decide)
  have h0 := hk 0 (by decide)
  match out, hlen, h0, hw with
  | [o], _, h0, hw =>
    simp only [List.getElem?_cons_zero, Option.some.injEq] at h0
    rw [h0] at hw
    exact ⟨ToLowerSnake_ne_space, by decide, by decide, hw.trans (by decide)⟩

end FieldNamesLowerSnakeCase
